import Mathlib

/-!
Shallow embedding of the crook compressor (crook.cpp): fixed-point helpers,
reciprocal-table division, the PPM node/model, the carry-aware range coder,
and the compress/decompress drivers, together with theorems settling the
specification claims.  Machine integers are modelled as Nat with explicit
`% 2^w` at every operation where the C++ unsigned arithmetic can wrap.
-/

namespace Crook

/-! ## Constants (crook.cpp lines 167-188) -/

def ARI_P_BITS : Nat := 12
def ARI_P_SCALE : Nat := 1 <<< ARI_P_BITS

def DIVISOR_BITS : Nat := 10
def DIVISOR_LIMIT : Nat := 1 <<< DIVISOR_BITS
def RECIPROCAL_BITS : Nat := 15
def RECIPROCAL_LIMIT : Nat := 1 <<< RECIPROCAL_BITS

def PPM_P_BITS : Nat := 22
def PPM_C_BITS : Nat := 10
def PPM_P_SCALE : Nat := 1 <<< PPM_P_BITS
def PPM_C_LIMIT : Nat := 1 <<< PPM_C_BITS
def PPM_C_SCALE : Nat := 32
def PPM_P_MASK : Nat := (PPM_P_SCALE - 1) <<< PPM_C_BITS
def PPM_C_MASK : Nat := PPM_C_LIMIT - 1
def PPM_P_START : Nat := PPM_P_SCALE / 2
def PPM_C_START : Nat := PPM_C_SCALE * 12
def PPM_C_INH : Nat := PPM_C_SCALE * 3 / 2
def PPM_C_INC : Nat := PPM_C_SCALE

/-! ## Reciprocal table and Divide (crook.cpp lines 214-243)

The C++ table stores `RECIPROCAL_LIMIT / (n + 2)` in a U16 slot; the `% 2^16`
mirrors that truncating store (it is the identity, proved below). -/

def reciprocalTable : List Nat :=
  (List.range DIVISOR_LIMIT).map (fun n => (RECIPROCAL_LIMIT / (n + 2)) % 2 ^ 16)

def reciprocals (n : Nat) : Nat := reciprocalTable.getD n 0

def Excess (n m : Nat) : Nat := if n > m then n - m else 0

def Divide (x n y m : Nat) : Nat :=
  let dn := Excess n (32 - RECIPROCAL_BITS)
  let dm := Excess m DIVISOR_BITS
  let dk := RECIPROCAL_BITS + dm - dn
  (((x >>> dn) * reciprocals (y >>> dm)) % 2 ^ 32) >>> dk

/-! ## Fit and Fit0 (crook.cpp lines 252-262) -/

def Fit (x n m : Nat) : Nat :=
  if n > m then x >>> (n - m) else (x <<< (m - n)) % 2 ^ 32

def Fit0 (x n m : Nat) : Nat := Fit x n m + 1 - (x >>> (n - 1))

/-! ## The node (crook.cpp lines 284-341) -/

structure Node where
  ext0 : Nat
  ext1 : Nat
  sfx : Nat
  ctr : Nat
deriving Repr, DecidableEq

instance : Inhabited Node := ⟨⟨0, 0, 0, 0⟩⟩

/-- Initial constructor Node(ext0, ext1, sfx). -/
def Node.mkInit (ext0 ext1 sfx : Nat) : Node :=
  ⟨ext0, ext1, sfx, (PPM_P_START <<< PPM_C_BITS) + PPM_C_START⟩

/-- Inheriting constructor Node(sfx, sfxp): ctr from the suffix node's ctr. -/
def Node.mkInherit (sfx sfxpCtr : Nat) : Node :=
  ⟨0, 0, sfx, (sfxpCtr &&& PPM_P_MASK) + PPM_C_INH⟩

def Node.Predict (nd : Node) : Nat := nd.ctr >>> PPM_C_BITS

/-- Counter update of Node::Update, on the packed ctr word.  The probability
step is U32 arithmetic; the subtracting branch is written with the explicit
wrap `(p1 + 2^32 - d) % 2^32` that unsigned C++ performs. -/
def updCtr (bit : Bool) (ctr : Nat) : Nat :=
  let cnt := ctr &&& PPM_C_MASK
  let p1 := ctr >>> PPM_C_BITS
  let cnt' := if cnt < PPM_C_LIMIT - PPM_C_INC then cnt + PPM_C_INC else PPM_C_LIMIT - 1
  let p1' :=
    if bit then
      (p1 + PPM_C_SCALE * Divide ((PPM_P_SCALE + 2 ^ 32 - p1) % 2 ^ 32) PPM_P_BITS cnt' PPM_C_BITS) % 2 ^ 32
    else
      (p1 + 2 ^ 32 - (PPM_C_SCALE * Divide p1 PPM_P_BITS cnt' PPM_C_BITS) % 2 ^ 32) % 2 ^ 32
  ((p1' <<< PPM_C_BITS) + cnt') % 2 ^ 32

def Node.Update (bit : Bool) (nd : Node) : Node :=
  { nd with ctr := updCtr bit nd.ctr }

def Node.ext (bit : Bool) (nd : Node) : Nat := if bit then nd.ext1 else nd.ext0

def Node.setExt (bit : Bool) (v : Nat) (nd : Node) : Node :=
  if bit then { nd with ext1 := v } else { nd with ext0 := v }

/-! ## The model (crook.cpp lines 357-424)

The node pool is a list whose length is the C++ `top - nodes`; `nodesLimit`
caps its growth (`top < end`).  `order` and `orderLimitBits` are C++ ints,
modelled as Int (the descent loop drives `order` below zero transiently). -/

def defNode : Node := ⟨0, 0, 0, 0⟩

def getN (nodes : List Node) (i : Nat) : Node := nodes.getD i defNode

def setN (nodes : List Node) (i : Nat) (nd : Node) : List Node := nodes.set i nd

structure PPM where
  nodesLimit : Nat
  orderLimitBits : Int
  nodes : List Node
  act : Nat
  order : Int
deriving Repr

/-- Initial pool: root, 127 internal byte-trie nodes, 128 leaves. -/
def initNodes : List Node :=
  [Node.mkInit 1 1 0]
    ++ (List.range 127).map (fun k => Node.mkInit (2 * k + 2) (2 * k + 3) 0)
    ++ (List.range 128).map (fun _ => Node.mkInit 0 0 0)

def PPM.mk0 (memoryLimit orderLimit : Nat) : PPM :=
  { nodesLimit := memoryLimit * (1 <<< 20) / 16
    orderLimitBits := 8 * (orderLimit : Int) + 7
    nodes := initNodes
    act := 1
    order := 0 }

def PPM.Predict (s : PPM) : Nat :=
  Fit0 (getN s.nodes s.act).Predict PPM_P_BITS ARI_P_BITS

/-- Apply Node::Update to the node at index i. -/
def updN (bit : Bool) (nodes : List Node) (i : Nat) : List Node :=
  setN nodes i (Node.Update bit (getN nodes i))

/-- Suffix-descent loop of PPM::Update: while the active node has no child on
the observed bit, hop to its suffix and update that node too.  Fuel-indexed;
PPM::Update runs it with fuel act+1, which suffices in every reachable state
(claim C7). -/
def descend (bit : Bool) :
    Nat → List Node → Nat → Nat → Int → Option (List Node × Nat × Nat × Int)
  | 0, _, _, _, _ => none
  | fuel + 1, nodes, lst, act, order =>
    if (getN nodes act).ext bit = 0 then
      let act' := (getN nodes act).sfx
      descend bit fuel (updN bit nodes act') act act' (order - 8)
    else
      some (nodes, lst, act, order)

def PPM.Update (bit : Bool) (s : PPM) : Option PPM :=
  let nodes0 := updN bit s.nodes s.act
  match descend bit (s.act + 1) nodes0 s.act s.act s.order with
  | none => none
  | some (nodes, lst, act, order) =>
    let extIdx := (getN nodes act).ext bit
    if act ≠ lst ∧ order + 9 ≤ s.orderLimitBits ∧ nodes.length < s.nodesLimit then
      let newIdx := nodes.length
      let newNode := Node.mkInherit extIdx (getN nodes extIdx).ctr
      some { s with
              nodes := (setN nodes lst (Node.setExt bit newIdx (getN nodes lst))) ++ [newNode]
              act := newIdx
              order := order + 9 }
    else
      some { s with nodes := nodes, act := extIdx, order := order + 1 }

/-! ## The range coder (crook.cpp lines 436-533)

Emitted bytes are collected in `out` (putc truncates to a byte, hence the
`% 256`).  The encoder's `low` is the C++ U64; the shift `low = (lo32 << 8)`
is U32 arithmetic, hence the `% 2^32`.  Normalize's while loop is
fuel-indexed; fuel 4 always suffices once range is nonzero (claim C10). -/

structure Encoder where
  low : Nat
  range : Nat
  fluxLen : Nat
  fluxFst : Nat
  out : List Nat
deriving Repr

def Encoder.mk0 : Encoder :=
  { low := 0, range := 0xFFFFFFFF, fluxLen := 1, fluxFst := 0, out := [] }

def Encoder.Encode (bit : Bool) (p1 : Nat) (e : Encoder) : Encoder :=
  let mid := e.range / ARI_P_SCALE * p1
  if bit then
    { e with range := mid }
  else
    { e with low := (e.low + mid) % 2 ^ 64, range := e.range - mid }

/-- One iteration of the body of Encoder::Normalize. -/
def Encoder.normStep (e : Encoder) : Encoder :=
  let lo32 := e.low % 2 ^ 32
  let hi32 := e.low >>> 32
  if lo32 < 0xFF000000 ∨ hi32 ≠ 0 then
    { low := (lo32 <<< 8) % 2 ^ 32
      range := e.range <<< 8
      fluxLen := 1
      fluxFst := lo32 >>> 24
      out := e.out ++ ((e.fluxFst + hi32) % 256) :: List.replicate (e.fluxLen - 1) ((0xFF + hi32) % 256) }
  else
    { e with
      low := (lo32 <<< 8) % 2 ^ 32
      range := e.range <<< 8
      fluxLen := e.fluxLen + 1 }

def Encoder.Normalize : Nat → Encoder → Encoder
  | 0, e => e
  | fuel + 1, e =>
    if e.range ≤ 0xFFFFFF then Encoder.Normalize fuel e.normStep else e

/-- Encoder::FlushBuffer: the bytes of the finished coder stream. -/
def Encoder.FlushBuffer (e : Encoder) : List Nat :=
  let lo32 := e.low % 2 ^ 32
  let hi32 := e.low >>> 32
  e.out
    ++ ((e.fluxFst + hi32) % 256) :: List.replicate (e.fluxLen - 1) ((0xFF + hi32) % 256)
    ++ [(lo32 >>> 24) % 256, (lo32 >>> 16) % 256, (lo32 >>> 8) % 256, lo32 % 256]

/-- Reading a byte: getc returns the byte, or -1 at EOF, which the U32
additions below see as 2^32 - 1. -/
def getByte (code : List Nat) (pos : Nat) : Nat := code.getD pos (2 ^ 32 - 1)

structure Decoder where
  range : Nat
  cml : Nat
  pos : Nat
deriving Repr

def Decoder.mk0 (pos : Nat) : Decoder := { range := 0xFFFFFFFF, cml := 0, pos := pos }

def Decoder.FillBuffer (code : List Nat) (d : Decoder) : Decoder :=
  (List.range 5).foldl
    (fun d _ => { d with
                   cml := ((d.cml <<< 8) % 2 ^ 32 + getByte code d.pos) % 2 ^ 32
                   pos := d.pos + 1 })
    d

def Decoder.Decode (p1 : Nat) (d : Decoder) : Bool × Decoder :=
  let mid := d.range / ARI_P_SCALE * p1
  if d.cml < mid then
    (true, { d with range := mid })
  else
    (false, { d with cml := d.cml - mid, range := d.range - mid })

def Decoder.Normalize (code : List Nat) : Nat → Decoder → Decoder
  | 0, d => d
  | fuel + 1, d =>
    if d.range ≤ 0xFFFFFF then
      Decoder.Normalize code fuel
        { d with
          cml := ((d.cml <<< 8) % 2 ^ 32 + getByte code d.pos) % 2 ^ 32
          pos := d.pos + 1
          range := d.range <<< 8 }
    else d

/-! ## Compress and Decompress (crook.cpp lines 592-665) -/

/-- Inner bit loop of Compress over one byte c: fuel k means masks
2^(k-1) down to 2^0 remain. -/
def encodeByte (c : Nat) : Nat → PPM → Encoder → Option (PPM × Encoder)
  | 0, s, e => some (s, e)
  | k + 1, s, e =>
    let p1 := s.Predict
    let bit := c &&& (1 <<< k) ≠ 0
    let e' := e.Encode bit p1
    match s.Update bit with
    | none => none
    | some s' => encodeByte c k s' (e'.Normalize 4)

def encodeBytes : List Nat → PPM → Encoder → Option (PPM × Encoder)
  | [], s, e => some (s, e)
  | c :: cs, s, e =>
    match encodeByte c 8 s e with
    | none => none
    | some (s', e') => encodeBytes cs s' e'

/-- Compress: 4-byte big-endian length, then the coded stream. -/
def Compress (memoryLimit orderLimit : Nat) (text : List Nat) : Option (List Nat) :=
  let textLength := text.length % 2 ^ 32
  let lenBytes := [(textLength >>> 24) % 256, (textLength >>> 16) % 256,
                   (textLength >>> 8) % 256, textLength % 256]
  match encodeBytes text (PPM.mk0 memoryLimit orderLimit) Encoder.mk0 with
  | none => none
  | some (_, e) => some (lenBytes ++ e.FlushBuffer)

/-- Inner bit loop of Decompress accumulating one byte into c. -/
def decodeByte (code : List Nat) : Nat → PPM → Decoder → Nat → Option (PPM × Decoder × Nat)
  | 0, s, d, c => some (s, d, c)
  | k + 1, s, d, c =>
    let p1 := s.Predict
    let (bit, d') := d.Decode p1
    let c' := if bit then c ||| (1 <<< k) else c
    match s.Update bit with
    | none => none
    | some s' => decodeByte code k s' (d'.Normalize code 4) c'

def decodeBytes (code : List Nat) : Nat → PPM → Decoder → Option (PPM × Decoder × List Nat)
  | 0, s, d => some (s, d, [])
  | n + 1, s, d =>
    match decodeByte code 8 s d 0 with
    | none => none
    | some (s', d', c) =>
      match decodeBytes code n s' d' with
      | none => none
      | some (s'', d'', cs) => some (s'', d'', c :: cs)

def Decompress (memoryLimit orderLimit : Nat) (code : List Nat) : Option (List Nat) :=
  let textLength :=
    ((getByte code 0 <<< 24) % 2 ^ 32 + (getByte code 1 <<< 16) % 2 ^ 32
      + (getByte code 2 <<< 8) % 2 ^ 32 + getByte code 3) % 2 ^ 32
  let d := Decoder.FillBuffer code (Decoder.mk0 4)
  match decodeBytes code textLength (PPM.mk0 memoryLimit orderLimit) d with
  | none => none
  | some (_, _, cs) => some cs

/-! ## Exact-arithmetic abstraction of the range coder

ACoder tracks the exact (unbounded) low end L of the coding interval at the
current byte scale, the exact range R (identical to the machine range), and
the number t of byte shifts performed.  The machine encoder is proved to
refine it, and the machine decoder is proved to decode correctly against it:
composing the two gives the round-trip theorem (claim C1). -/

/-- Deferred-carry pending bytes of the encoder: the held byte followed by
fluxLen - 1 potential-carry 0xFF bytes. -/
def pending (e : Encoder) : List Nat := e.fluxFst :: List.replicate (e.fluxLen - 1) 0xFF

/-- Big-endian value of a byte string. -/
def valBE (l : List Nat) : Nat := l.foldl (fun a b => a * 256 + b) 0

structure ACoder where
  L : Nat
  R : Nat
  t : Nat
deriving Repr

def ACoder.mk0 : ACoder := { L := 0, R := 0xFFFFFFFF, t := 0 }

def ACoder.encode (bit : Bool) (p1 : Nat) (a : ACoder) : ACoder :=
  let mid := a.R / ARI_P_SCALE * p1
  if bit then { a with R := mid } else { a with L := a.L + mid, R := a.R - mid }

def ACoder.norm : Nat → ACoder → ACoder
  | 0, a => a
  | fuel + 1, a =>
    if a.R ≤ 0xFFFFFF then
      ACoder.norm fuel { L := a.L * 256, R := a.R * 256, t := a.t + 1 }
    else a

def aStep (p1 : Nat) (bit : Bool) (a : ACoder) : ACoder := ACoder.norm 4 (a.encode bit p1)

/-- Abstract run coupled with the model, mirroring the per-byte bit loop of
Compress and Decompress. -/
def aRunByte (c : Nat) : Nat → PPM → ACoder → Option (PPM × ACoder)
  | 0, s, a => some (s, a)
  | k + 1, s, a =>
    let p1 := s.Predict
    let bit := c &&& (1 <<< k) ≠ 0
    match s.Update bit with
    | none => none
    | some s' => aRunByte c k s' (aStep p1 bit a)

def aRunBytes : List Nat → PPM → ACoder → Option (PPM × ACoder)
  | [], s, a => some (s, a)
  | c :: cs, s, a =>
    match aRunByte c 8 s a with
    | none => none
    | some (s', a') => aRunBytes cs s' a'

/-- Range window invariant at a step boundary (after renormalization). -/
def AInv (a : ACoder) : Prop := 0xFFFFFF < a.R ∧ a.R ≤ 0xFFFFFFFF

/-- Machine encoder refines the abstract coder: identical range, the exact
low end decomposes into emitted-plus-pending digits and the 64-bit register,
matching byte accounting, and the carry-safety bound. -/
def RefE (e : Encoder) (a : ACoder) : Prop :=
  e.range = a.R ∧
  valBE (e.out ++ pending e) * 2 ^ 32 + e.low = a.L ∧
  e.out.length + e.fluxLen = a.t + 1 ∧
  1 ≤ e.fluxLen ∧ e.fluxFst < 256 ∧ (∀ b ∈ e.out, b < 256) ∧
  e.low + e.range ≤ 2 ^ 33 ∧
  (e.low + e.range ≤ 2 ^ 32 ∨ e.fluxFst ≤ 0xFE)

/-- The compressed stream matches the final exact low value W with T total
shifts: every coder byte (4-byte length header skipped) is the corresponding
big-endian digit of W written with T+5 digits. -/
def CodeMatch (code : List Nat) (W T : Nat) : Prop :=
  ∀ j, j < T + 5 → getByte code (j + 4) = W / 256 ^ (T + 4 - j) % 256

/-- Machine decoder tracks the abstract coder against the final value W. -/
def RefD (code : List Nat) (W T : Nat) (d : Decoder) (a : ACoder) : Prop :=
  d.range = a.R ∧
  d.pos = a.t + 9 ∧
  a.t ≤ T ∧
  d.cml + a.L = W / 256 ^ (T - a.t)

/-! ## Invariants and reachability -/

/-- Counter invariant of claim C5: the packed probability is in (0, 2^22)
and the packed count is below 1024. -/
def CtrInv (ctr : Nat) : Prop :=
  0 < ctr >>> PPM_C_BITS ∧ ctr >>> PPM_C_BITS < 2 ^ 22 ∧ ctr &&& PPM_C_MASK < 1024

instance (ctr : Nat) : Decidable (CtrInv ctr) := by
  unfold CtrInv
  infer_instance

/-- Two pools agree on length and on all structural fields (only counters
may differ). -/
def sameStruct (nodes nodes' : List Node) : Prop :=
  nodes'.length = nodes.length ∧
  ∀ i, (getN nodes' i).ext0 = (getN nodes i).ext0 ∧
       (getN nodes' i).ext1 = (getN nodes i).ext1 ∧
       (getN nodes' i).sfx = (getN nodes i).sfx

/-- Structural trie invariant of claim C9 plus the counter invariant: the
root keeps ext0 = ext1 = 1, extension edges are 0 or point strictly forward
inside the pool, and suffix links of non-root nodes point strictly back. -/
def NodesInv (nodes : List Node) : Prop :=
  (getN nodes 0).ext0 = 1 ∧ (getN nodes 0).ext1 = 1 ∧
  ∀ i, i < nodes.length →
    CtrInv (getN nodes i).ctr ∧
    ((getN nodes i).ext0 = 0 ∨ (i < (getN nodes i).ext0 ∧ (getN nodes i).ext0 < nodes.length)) ∧
    ((getN nodes i).ext1 = 0 ∨ (i < (getN nodes i).ext1 ∧ (getN nodes i).ext1 < nodes.length)) ∧
    (i ≠ 0 → (getN nodes i).sfx < i)

instance (nodes : List Node) : Decidable (NodesInv nodes) := by
  unfold NodesInv
  infer_instance

def StateInv (s : PPM) : Prop :=
  s.act < s.nodes.length ∧ NodesInv s.nodes

/-- Model states reachable from the initial model under some bit sequence. -/
inductive Reach (m o : Nat) : PPM → Prop where
  | start : Reach m o (PPM.mk0 m o)
  | step {s s' : PPM} (bit : Bool) : Reach m o s → PPM.Update bit s = some s' → Reach m o s'

/-! ## Numeric values of the constants -/

@[simp] theorem ARI_P_SCALE_eq : ARI_P_SCALE = 4096 := by decide
@[simp] theorem ARI_P_BITS_eq : ARI_P_BITS = 12 := by decide
@[simp] theorem DIVISOR_BITS_eq : DIVISOR_BITS = 10 := by decide
@[simp] theorem DIVISOR_LIMIT_eq : DIVISOR_LIMIT = 1024 := by decide
@[simp] theorem RECIPROCAL_BITS_eq : RECIPROCAL_BITS = 15 := by decide
@[simp] theorem RECIPROCAL_LIMIT_eq : RECIPROCAL_LIMIT = 32768 := by decide
@[simp] theorem PPM_P_BITS_eq : PPM_P_BITS = 22 := by decide
@[simp] theorem PPM_C_BITS_eq : PPM_C_BITS = 10 := by decide
@[simp] theorem PPM_P_SCALE_eq : PPM_P_SCALE = 4194304 := by decide
@[simp] theorem PPM_C_LIMIT_eq : PPM_C_LIMIT = 1024 := by decide
@[simp] theorem PPM_C_SCALE_eq : PPM_C_SCALE = 32 := by decide
@[simp] theorem PPM_P_MASK_eq : PPM_P_MASK = 4294966272 := by decide
@[simp] theorem PPM_C_MASK_eq : PPM_C_MASK = 1023 := by decide
@[simp] theorem PPM_P_START_eq : PPM_P_START = 2097152 := by decide
@[simp] theorem PPM_C_START_eq : PPM_C_START = 384 := by decide
@[simp] theorem PPM_C_INH_eq : PPM_C_INH = 48 := by decide
@[simp] theorem PPM_C_INC_eq : PPM_C_INC = 32 := by decide

/-! ## Bitwise operations as arithmetic -/

theorem and_mask (x k : Nat) : x &&& (2 ^ k - 1) = x % 2 ^ k :=
  Nat.and_pow_two_sub_one_eq_mod x k

theorem and_1023 (x : Nat) : x &&& 1023 = x % 1024 := by
  have := Nat.and_pow_two_sub_one_eq_mod x 10
  norm_num at this
  exact this

theorem shiftr (x k : Nat) : x >>> k = x / 2 ^ k := Nat.shiftRight_eq_div_pow x k

theorem shiftl (x k : Nat) : x <<< k = x * 2 ^ k := Nat.shiftLeft_eq x k

/-! ## Reciprocal table and Divide: characterization -/

theorem reciprocals_eq {n : Nat} (h : n < 1024) : reciprocals n = 32768 / (n + 2) := by
  have hlt : 32768 / (n + 2) < 65536 :=
    lt_of_le_of_lt (Nat.div_le_self _ _) (by norm_num)
  unfold reciprocals reciprocalTable
  rw [List.getD_eq_getElem?_getD, List.getElem?_map, List.getElem?_range (by simpa using h)]
  simp [Nat.mod_eq_of_lt hlt]

theorem reciprocals_le {n : Nat} (h : n < 1024) : reciprocals n ≤ 16384 := by
  rw [reciprocals_eq h]
  calc 32768 / (n + 2) ≤ 32768 / 2 := Nat.div_le_div_left (by omega) (by omega)
    _ = 16384 := by norm_num

theorem reciprocals_le_963 {n : Nat} (h32 : 32 ≤ n) (h : n < 1024) : reciprocals n ≤ 963 := by
  rw [reciprocals_eq h]
  calc 32768 / (n + 2) ≤ 32768 / 34 := Nat.div_le_div_left (by omega) (by omega)
    _ = 963 := by norm_num

theorem Divide_eq {x y : Nat} (hx : x < 2 ^ 22) (hy : y < 2 ^ 10) :
    Divide x 22 y 10 = x / 32 * reciprocals y / 1024 := by
  have h2 : reciprocals y ≤ 16384 := reciprocals_le (by omega)
  have hxr : x >>> 5 * reciprocals y < 4294967296 := by
    rw [shiftr]
    have h1 : x / 2 ^ 5 ≤ 131071 := by omega
    calc x / 2 ^ 5 * reciprocals y ≤ 131071 * 16384 := Nat.mul_le_mul h1 h2
      _ < 4294967296 := by norm_num
  unfold Divide Excess
  norm_num
  rw [Nat.mod_eq_of_lt hxr, shiftr, shiftr]
  norm_num

/-- Core decay bound: one probability step moves p1 by strictly less than the
error term, as long as the (post-increment) count is at least 32. -/
theorem step_lt {e r : Nat} (hr : r ≤ 963) (he : 0 < e) :
    32 * (e / 32 * r / 1024) < e := by
  rcases Nat.eq_zero_or_pos (e / 32) with hq | hq
  · simp [hq]
    omega
  · have h1 : e / 32 * r < e / 32 * 1024 :=
      (Nat.mul_lt_mul_left hq).2 (show r < 1024 by omega)
    have h2 : e / 32 * r / 1024 < e / 32 := by
      apply Nat.div_lt_of_lt_mul
      calc e / 32 * r < e / 32 * 1024 := h1
        _ = 1024 * (e / 32) := Nat.mul_comm _ _
    have h3 : e / 32 * 32 ≤ e := Nat.div_mul_le_self e 32
    omega

/-! ## Fit0 bounds -/

theorem Fit0_eq (x : Nat) :
    Fit0 x 22 12 = x / 1024 + 1 - x / 2097152 := by
  unfold Fit0 Fit
  norm_num [shiftr]

theorem Fit0_bounds {x : Nat} (h0 : 0 < x) (hx : x < 2 ^ 22) :
    0 < Fit0 x 22 12 ∧ Fit0 x 22 12 < 4096 := by
  rw [Fit0_eq x]
  norm_num at hx
  omega

/-! ## The packed-counter invariant (claim C5) -/

theorem ctrInv_iff (ctr : Nat) : CtrInv ctr ↔ 1024 ≤ ctr ∧ ctr < 2 ^ 32 := by
  unfold CtrInv
  rw [PPM_C_BITS_eq, PPM_C_MASK_eq, shiftr, and_1023]
  norm_num
  omega

/-- Arithmetic characterization of updCtr under the invariant: no unsigned
wrap occurs, the count saturates below 1024, and the probability moves
strictly inside (0, 2^22). -/
theorem updCtr_spec {ctr : Nat} (h : CtrInv ctr) (bit : Bool) :
    ∃ p1' cnt',
      updCtr bit ctr = p1' * 1024 + cnt' ∧ 0 < p1' ∧ p1' < 2 ^ 22 ∧
      32 ≤ cnt' ∧ cnt' < 1024 ∧
      cnt' = (if ctr % 1024 < 992 then ctr % 1024 + 32 else 1023) ∧
      p1' = (if bit then
               ctr / 1024 + 32 * ((4194304 - ctr / 1024) / 32 * reciprocals cnt' / 1024)
             else ctr / 1024 - 32 * (ctr / 1024 / 32 * reciprocals cnt' / 1024)) := by
  obtain ⟨hp0, hp2, _⟩ := h
  rw [shiftr, PPM_C_BITS_eq] at hp0 hp2
  norm_num at hp0 hp2
  have hsh : ctr >>> 10 = ctr / 1024 := by
    rw [shiftr]
    norm_num
  have hmask : ctr &&& 1023 = ctr % 1024 := and_1023 ctr
  unfold updCtr
  simp only [PPM_C_BITS_eq, PPM_C_MASK_eq, PPM_C_LIMIT_eq, PPM_C_INC_eq, PPM_C_SCALE_eq,
    PPM_P_BITS_eq, PPM_P_SCALE_eq, hsh, hmask,
    show (1024 : Nat) - 32 = 992 from by norm_num,
    show (1024 : Nat) - 1 = 1023 from by norm_num]
  set p1 := ctr / 1024 with hp1def
  set cnt := ctr % 1024 with hcntdef
  set cnt' := (if cnt < 992 then cnt + 32 else 1023) with hcnt'
  have hcntlt : cnt < 1024 := Nat.mod_lt _ (by norm_num)
  have hcnt'32 : 32 ≤ cnt' := by
    rw [hcnt']
    split <;> omega
  have hcnt'lt : cnt' < 1024 := by
    rw [hcnt']
    split <;> omega
  have hrle : reciprocals cnt' ≤ 963 := reciprocals_le_963 hcnt'32 hcnt'lt
  cases bit with
  | true =>
    have herr : (4194304 + 2 ^ 32 - p1) % 2 ^ 32 = 4194304 - p1 := by
      have h1 : 4194304 + 2 ^ 32 - p1 = (4194304 - p1) + 2 ^ 32 := by omega
      rw [h1, Nat.add_mod_right, Nat.mod_eq_of_lt (by omega)]
    have hD := Divide_eq (x := 4194304 - p1) (y := cnt') (by norm_num; omega) (by norm_num; omega)
    have hmove := step_lt hrle (show 0 < 4194304 - p1 by omega)
    set D := (4194304 - p1) / 32 * reciprocals cnt' / 1024 with hDdef
    have hnowrap : (p1 + 32 * D) % 2 ^ 32 = p1 + 32 * D := Nat.mod_eq_of_lt (by omega)
    refine ⟨p1 + 32 * D, cnt', ?_, by omega, by omega, hcnt'32, hcnt'lt, rfl, by norm_num⟩
    simp only [if_true]
    rw [herr, hD, hnowrap, shiftl]
    rw [Nat.mod_eq_of_lt (show (p1 + 32 * D) * 2 ^ 10 + cnt' < 2 ^ 32 by norm_num; omega)]
    ring_nf
  | false =>
    have hD := Divide_eq (x := p1) (y := cnt') (by norm_num; omega) (by norm_num; omega)
    have hmove := step_lt hrle hp0
    set D := p1 / 32 * reciprocals cnt' / 1024 with hDdef
    have hDsmall : (32 * D) % 2 ^ 32 = 32 * D := Nat.mod_eq_of_lt (by omega)
    refine ⟨p1 - 32 * D, cnt', ?_, by omega, by omega, hcnt'32, hcnt'lt, rfl, by norm_num⟩
    simp only [Bool.false_eq_true, if_false]
    rw [hD, hDsmall]
    have hsub : (p1 + 2 ^ 32 - 32 * D) % 2 ^ 32 = p1 - 32 * D := by
      have h1 : p1 + 2 ^ 32 - 32 * D = (p1 - 32 * D) + 2 ^ 32 := by omega
      rw [h1, Nat.add_mod_right, Nat.mod_eq_of_lt (by omega)]
    rw [hsub, shiftl]
    rw [Nat.mod_eq_of_lt (show (p1 - 32 * D) * 2 ^ 10 + cnt' < 2 ^ 32 by norm_num; omega)]
    ring_nf

theorem ctrInv_updCtr {ctr : Nat} (h : CtrInv ctr) (bit : Bool) :
    CtrInv (updCtr bit ctr) := by
  obtain ⟨p1', cnt', heq, h1, h2, h3, h4, -, -⟩ := updCtr_spec h bit
  rw [heq, ctrInv_iff]
  constructor <;> omega

/-- Masking ctr with PPM_P_MASK clears the count bits and keeps the
probability bits (of the low 32-bit word). -/
theorem and_mask_hi (c : Nat) : c &&& 4294966272 = c % 2 ^ 32 / 2 ^ 10 * 2 ^ 10 := by
  have hm : (4294966272 : Nat) = (2 ^ 22 - 1) <<< 10 := by decide
  have hr : c % 2 ^ 32 / 2 ^ 10 * 2 ^ 10 = ((c % 2 ^ 32) >>> 10) <<< 10 := by
    rw [shiftr, shiftl]
  rw [hm, hr]
  apply Nat.eq_of_testBit_eq
  intro i
  rw [Nat.testBit_and, Nat.testBit_shiftLeft, Nat.testBit_shiftLeft, Nat.testBit_shiftRight,
    Nat.testBit_mod_two_pow]
  rcases Nat.lt_or_ge i 10 with h10 | h10
  · simp [Nat.not_le_of_lt h10]
  · have hge : decide (i ≥ 10) = true := by
      simp [h10]
    have hadd : 10 + (i - 10) = i := by omega
    rw [hge, hadd, Nat.testBit_two_pow_sub_one]
    have heq : decide (i - 10 < 22) = decide (i < 32) := by
      simp only [decide_eq_decide]
      omega
    rw [heq]
    cases hc : c.testBit i <;> cases h32 : decide (i < 32) <;> simp

theorem ctrInv_mkInit (e0 e1 sx : Nat) : CtrInv (Node.mkInit e0 e1 sx).ctr := by
  rw [Node.mkInit, ctrInv_iff]
  norm_num [shiftl]

theorem ctrInv_mkInherit {c : Nat} (h : CtrInv c) (sx : Nat) :
    CtrInv (Node.mkInherit sx c).ctr := by
  obtain ⟨hc1, hc2⟩ := (ctrInv_iff c).1 h
  rw [Node.mkInherit, ctrInv_iff]
  simp only [PPM_P_MASK_eq, PPM_C_INH_eq, and_mask_hi]
  rw [Nat.mod_eq_of_lt hc2]
  have h1 : 1 ≤ c / 2 ^ 10 := Nat.one_le_div_iff (by norm_num) |>.2 (by omega)
  have h2 : c / 2 ^ 10 < 2 ^ 22 := by omega
  constructor
  · calc (1024 : Nat) = 1 * 2 ^ 10 := by norm_num
      _ ≤ c / 2 ^ 10 * 2 ^ 10 := Nat.mul_le_mul_right _ h1
      _ ≤ c / 2 ^ 10 * 2 ^ 10 + 48 := Nat.le_add_right _ _
  · calc c / 2 ^ 10 * 2 ^ 10 + 48 ≤ (2 ^ 22 - 1) * 2 ^ 10 + 48 :=
        Nat.add_le_add_right (Nat.mul_le_mul_right _ (by omega)) _
      _ < 2 ^ 32 := by norm_num

/-- Claim C5: for every live node, after any sequence of constructions
(initial, or inherited from a valid node) and Update calls with either bit,
the packed counter keeps 0 < (ctr >> 10) < 2^22 and (ctr & 1023) < 1024. -/
theorem C5_node_ctr_invariant :
    (∀ e0 e1 sx, CtrInv (Node.mkInit e0 e1 sx).ctr) ∧
    (∀ sx c, CtrInv c → CtrInv (Node.mkInherit sx c).ctr) ∧
    (∀ (bits : List Bool) (nd : Node), CtrInv nd.ctr →
      CtrInv ((bits.foldl (fun n b => Node.Update b n) nd).ctr)) := by
  refine ⟨ctrInv_mkInit, fun sx c h => ctrInv_mkInherit h sx, ?_⟩
  intro bits
  induction bits with
  | nil => intro nd h; exact h
  | cons b bs ih =>
    intro nd h
    exact ih _ (ctrInv_updCtr h b)

theorem C5_witness :
    CtrInv (Node.mkInit 2 3 0).ctr ∧
    CtrInv (Node.mkInherit 7 (Node.mkInit 2 3 0).ctr).ctr ∧
    CtrInv (([true, false, false, true].foldl (fun n b => Node.Update b n)
      (Node.mkInit 2 3 0)).ctr) :=
  ⟨C5_node_ctr_invariant.1 2 3 0,
   C5_node_ctr_invariant.2.1 7 _ (by decide),
   C5_node_ctr_invariant.2.2 [true, false, false, true] _ (by decide)⟩

/-- Claim C6: the reciprocal table holds 32768/(n+2) and Divide at the
(n,m) = (22,10) call site computes dn=5, dm=0, dk=10 and
((x >> 5) * R[y]) >> 10. -/
theorem C6_reciprocal_table_divide :
    (∀ n, n < 1024 → reciprocals n = 32768 / (n + 2)) ∧
    (∀ x y, x < 2 ^ 22 → y < 2 ^ 10 →
      Excess 22 (32 - RECIPROCAL_BITS) = 5 ∧ Excess 10 DIVISOR_BITS = 0 ∧
      RECIPROCAL_BITS + Excess 10 DIVISOR_BITS - Excess 22 (32 - RECIPROCAL_BITS) = 10 ∧
      Divide x 22 y 10 = ((x >>> 5) * reciprocals y) >>> 10) := by
  constructor
  · intro n h
    exact reciprocals_eq h
  · intro x y hx hy
    refine ⟨by decide, by decide, by decide, ?_⟩
    rw [Divide_eq hx hy, shiftr, shiftr]
    norm_num

theorem C6_witness :
    reciprocals 1023 = 32768 / 1025 ∧
    Divide 4100000 22 1023 10 = ((4100000 >>> 5) * reciprocals 1023) >>> 10 :=
  ⟨C6_reciprocal_table_divide.1 1023 (by norm_num),
   (C6_reciprocal_table_divide.2 4100000 1023 (by norm_num) (by norm_num)).2.2.2⟩

/-! ## Range-coder midpoint and renormalization lemmas -/

theorem mid_bounds {range p1 : Nat} (hr : 0xFFFFFF < range) (h0 : 0 < p1) (h1 : p1 < 4096) :
    0 < range / 4096 * p1 ∧ range / 4096 * p1 < range := by
  have hq : 4096 ≤ range / 4096 := Nat.le_div_iff_mul_le (by norm_num) |>.2 (by omega)
  have hqm : range / 4096 * 4096 ≤ range := Nat.div_mul_le_self range 4096
  have hup : range / 4096 * p1 ≤ range / 4096 * 4095 :=
    Nat.mul_le_mul_left _ (by omega)
  have hlo : range / 4096 * 1 ≤ range / 4096 * p1 :=
    Nat.mul_le_mul_left _ h0
  omega

theorem Encode_range (b : Bool) (p1 : Nat) (e : Encoder) :
    (e.Encode b p1).range =
      if b then e.range / 4096 * p1 else e.range - e.range / 4096 * p1 := by
  cases b <;> simp [Encoder.Encode]

theorem Encode_range_pos {p1 : Nat} (b : Bool) (e : Encoder)
    (hr : 0xFFFFFF < e.range) (h0 : 0 < p1) (h1 : p1 < 4096) :
    0 < (e.Encode b p1).range := by
  obtain ⟨hm0, hm1⟩ := mid_bounds hr h0 h1
  rw [Encode_range]
  cases b <;> simp <;> omega

theorem normalize_zero (e : Encoder) : Encoder.Normalize 0 e = e := rfl

theorem normalize_succ (f : Nat) (e : Encoder) :
    Encoder.Normalize (f + 1) e =
      if e.range ≤ 0xFFFFFF then Encoder.Normalize f e.normStep else e := rfl

theorem normStep_range (e : Encoder) : (e.normStep).range = e.range * 256 := by
  unfold Encoder.normStep
  dsimp only
  split <;> simp [shiftl]

theorem normalize_exits : ∀ (fuel : Nat) (e : Encoder), 0 < e.range →
    0xFFFFFF < e.range * 256 ^ fuel → 0xFFFFFF < (Encoder.Normalize fuel e).range := by
  intro fuel
  induction fuel with
  | zero =>
    intro e h0 hf
    simpa using hf
  | succ f ih =>
    intro e h0 hf
    rw [normalize_succ]
    split
    · apply ih
      · rw [normStep_range]
        omega
      · rw [normStep_range]
        calc (0xFFFFFF : Nat) < e.range * 256 ^ (f + 1) := hf
          _ = e.range * 256 * 256 ^ f := by ring
    · omega

theorem normalize_stable {e : Encoder} (h : 0xFFFFFF < e.range) :
    ∀ fuel, Encoder.Normalize fuel e = e := by
  intro fuel
  cases fuel with
  | zero => rfl
  | succ f =>
    rw [normalize_succ, if_neg (by omega)]

theorem normalize_add : ∀ (f g : Nat) (e : Encoder),
    Encoder.Normalize (f + g) e = Encoder.Normalize g (Encoder.Normalize f e) := by
  intro f
  induction f with
  | zero =>
    intro g e
    rw [Nat.zero_add]
    rfl
  | succ f ih =>
    intro g e
    by_cases h : e.range ≤ 0xFFFFFF
    · have h1 : f + 1 + g = (f + g) + 1 := by omega
      rw [h1, normalize_succ, if_pos h, normalize_succ, if_pos h]
      exact ih g e.normStep
    · push_neg at h
      rw [normalize_stable h, normalize_stable h, normalize_stable h]

theorem normalize_ge4 {e : Encoder} (h0 : 0 < e.range) :
    ∀ fuel, 4 ≤ fuel → Encoder.Normalize fuel e = Encoder.Normalize 4 e := by
  intro fuel hf
  obtain ⟨k, rfl⟩ : ∃ k, fuel = 4 + k := ⟨fuel - 4, by omega⟩
  rw [normalize_add]
  apply normalize_stable
  apply normalize_exits 4 e h0
  have : (2 : Nat) ^ 32 ≤ e.range * 256 ^ 4 := by
    calc (2 : Nat) ^ 32 = 1 * 256 ^ 4 := by norm_num
      _ ≤ e.range * 256 ^ 4 := Nat.mul_le_mul_right _ h0
  omega

theorem Decode_range (p1 : Nat) (d : Decoder) :
    ((d.Decode p1).2).range =
      if d.cml < d.range / 4096 * p1 then d.range / 4096 * p1
      else d.range - d.range / 4096 * p1 := by
  unfold Decoder.Decode
  dsimp only
  by_cases hc : d.cml < d.range / 4096 * p1 <;> simp [hc]

theorem Decode_fst (p1 : Nat) (d : Decoder) :
    ((d.Decode p1).1 = true) ↔ d.cml < d.range / 4096 * p1 := by
  unfold Decoder.Decode
  dsimp only
  by_cases hc : d.cml < d.range / 4096 * p1 <;> simp [hc]

theorem dnormalize_zero (code : List Nat) (d : Decoder) :
    Decoder.Normalize code 0 d = d := rfl

theorem dnormalize_succ (code : List Nat) (f : Nat) (d : Decoder) :
    Decoder.Normalize code (f + 1) d =
      if d.range ≤ 0xFFFFFF then
        Decoder.Normalize code f
          { d with
            cml := ((d.cml <<< 8) % 2 ^ 32 + getByte code d.pos) % 2 ^ 32
            pos := d.pos + 1
            range := d.range <<< 8 }
      else d := rfl

theorem dnormalize_exits : ∀ (fuel : Nat) (code : List Nat) (d : Decoder), 0 < d.range →
    0xFFFFFF < d.range * 256 ^ fuel → 0xFFFFFF < (Decoder.Normalize code fuel d).range := by
  intro fuel
  induction fuel with
  | zero =>
    intro code d h0 hf
    simpa using hf
  | succ f ih =>
    intro code d h0 hf
    rw [dnormalize_succ]
    split
    · apply ih
      · simp [shiftl]
        omega
      · simp only [shiftl]
        calc (0xFFFFFF : Nat) < d.range * 256 ^ (f + 1) := hf
          _ = d.range * 2 ^ 8 * 256 ^ f := by ring
    · omega

theorem dnormalize_stable {d : Decoder} (code : List Nat) (h : 0xFFFFFF < d.range) :
    ∀ fuel, Decoder.Normalize code fuel d = d := by
  intro fuel
  cases fuel with
  | zero => rfl
  | succ f =>
    rw [dnormalize_succ, if_neg (by omega)]

theorem dnormalize_add : ∀ (f g : Nat) (code : List Nat) (d : Decoder),
    Decoder.Normalize code (f + g) d = Decoder.Normalize code g (Decoder.Normalize code f d) := by
  intro f
  induction f with
  | zero =>
    intro g code d
    rw [Nat.zero_add]
    rfl
  | succ f ih =>
    intro g code d
    by_cases h : d.range ≤ 0xFFFFFF
    · have h1 : f + 1 + g = (f + g) + 1 := by omega
      rw [h1, dnormalize_succ, if_pos h, dnormalize_succ, if_pos h]
      exact ih g code _
    · push_neg at h
      rw [dnormalize_stable code h, dnormalize_stable code h, dnormalize_stable code h]

theorem dnormalize_ge4 {d : Decoder} (code : List Nat) (h0 : 0 < d.range) :
    ∀ fuel, 4 ≤ fuel → Decoder.Normalize code fuel d = Decoder.Normalize code 4 d := by
  intro fuel hf
  obtain ⟨k, rfl⟩ : ∃ k, fuel = 4 + k := ⟨fuel - 4, by omega⟩
  rw [dnormalize_add]
  apply dnormalize_stable
  apply dnormalize_exits 4 code d h0
  have : (2 : Nat) ^ 32 ≤ d.range * 256 ^ 4 := by
    calc (2 : Nat) ^ 32 = 1 * 256 ^ 4 := by norm_num
      _ ≤ d.range * 256 ^ 4 := Nat.mul_le_mul_right _ h0
  omega

theorem norm_range_eq : ∀ (fuel : Nat) (code : List Nat) (e : Encoder) (d : Decoder),
    e.range = d.range →
    (Encoder.Normalize fuel e).range = (Decoder.Normalize code fuel d).range := by
  intro fuel
  induction fuel with
  | zero =>
    intro code e d h
    simpa using h
  | succ f ih =>
    intro code e d h
    rw [normalize_succ, dnormalize_succ]
    by_cases hc : e.range ≤ 0xFFFFFF
    · rw [if_pos hc, if_pos (by omega)]
      apply ih
      rw [normStep_range]
      simp only [shiftl, h]
      norm_num
    · rw [if_neg hc, if_neg (by omega)]
      exact h

/-- Claim C10: with 0 < p1 < 4096 and a renormalized range, the midpoint is
strictly inside (0, range), both coder range registers stay positive, and the
fuel-4 renormalization loop genuinely terminates with range > 0xFFFFFF
(any larger fuel gives the same result). -/
theorem C10_range_positive_normalize_terminates :
    ∀ (p1 : Nat) (b : Bool) (e : Encoder) (d : Decoder) (code : List Nat),
      0 < p1 → p1 < 4096 → 0xFFFFFF < e.range → 0xFFFFFF < d.range →
      (0 < e.range / ARI_P_SCALE * p1 ∧ e.range / ARI_P_SCALE * p1 < e.range) ∧
      (0 < (e.Encode b p1).range ∧
        0xFFFFFF < (Encoder.Normalize 4 (e.Encode b p1)).range ∧
        ∀ fuel, 4 ≤ fuel →
          Encoder.Normalize fuel (e.Encode b p1) = Encoder.Normalize 4 (e.Encode b p1)) ∧
      (0 < ((d.Decode p1).2).range ∧
        0xFFFFFF < (Decoder.Normalize code 4 (d.Decode p1).2).range ∧
        ∀ fuel, 4 ≤ fuel →
          Decoder.Normalize code fuel (d.Decode p1).2 =
            Decoder.Normalize code 4 (d.Decode p1).2) := by
  intro p1 b e d code h0 h1 hre hrd
  have hme := mid_bounds hre h0 h1
  have hmd := mid_bounds hrd h0 h1
  have hepos : 0 < (e.Encode b p1).range := Encode_range_pos b e hre h0 h1
  have hdpos : 0 < ((d.Decode p1).2).range := by
    rw [Decode_range]
    split <;> omega
  refine ⟨by simpa using hme, ⟨hepos, ?_, normalize_ge4 hepos⟩,
    ⟨hdpos, ?_, dnormalize_ge4 code hdpos⟩⟩
  · apply normalize_exits 4 _ hepos
    have : (256 : Nat) ^ 4 ≤ (e.Encode b p1).range * 256 ^ 4 :=
      Nat.le_mul_of_pos_left _ hepos
    omega
  · apply dnormalize_exits 4 code _ hdpos
    have : (256 : Nat) ^ 4 ≤ ((d.Decode p1).2).range * 256 ^ 4 :=
      Nat.le_mul_of_pos_left _ hdpos
    omega

theorem C10_witness :
    0 < (2048 : Nat) ∧ (2048 : Nat) < 4096 ∧
    0xFFFFFF < Encoder.mk0.range ∧ 0xFFFFFF < (Decoder.mk0 4).range ∧
    0 < (Encoder.mk0.Encode true 2048).range ∧
    0xFFFFFF < (Encoder.Normalize 4 (Encoder.mk0.Encode true 2048)).range := by
  have h := C10_range_positive_normalize_terminates 2048 true Encoder.mk0 (Decoder.mk0 4) []
    (by norm_num) (by norm_num) (by norm_num [Encoder.mk0]) (by norm_num [Decoder.mk0])
  exact ⟨by norm_num, by norm_num, by norm_num [Encoder.mk0], by norm_num [Decoder.mk0],
    h.2.1.1, h.2.1.2.1⟩

/-- Claim C8: if the encoder and decoder hold equal renormalized ranges and
the decoder's Decode(p1) returns b, then after Encode b p1 + Normalize on one
side and Decode p1 + Normalize on the other the ranges are again equal. -/
theorem C8_range_lockstep :
    ∀ (e : Encoder) (d : Decoder) (code : List Nat) (b : Bool) (p1 : Nat),
      0 < p1 → p1 < 4096 → e.range = d.range → 0xFFFFFF < e.range →
      (d.Decode p1).1 = b →
      (Encoder.Normalize 4 (e.Encode b p1)).range =
        (Decoder.Normalize code 4 (d.Decode p1).2).range := by
  intro e d code b p1 h0 h1 heq hr hb
  have hrange : (e.Encode b p1).range = ((d.Decode p1).2).range := by
    rw [Encode_range, Decode_range, heq]
    by_cases hc : d.cml < d.range / 4096 * p1
    · have hbt : b = true := by
        rw [← hb]
        exact (Decode_fst p1 d).2 hc
      simp [hbt, hc]
    · have hne : (d.Decode p1).1 ≠ true := fun hh => hc ((Decode_fst p1 d).1 hh)
      have hbf : b = false := by
        rw [← hb]
        cases hx : (d.Decode p1).1 with
        | false => rfl
        | true => exact absurd hx hne
      simp [hbf, hc]
  exact norm_range_eq 4 code _ _ hrange

theorem C8_witness :
    (((Decoder.mk0 4).Decode 2048).1 = true) ∧
    (Encoder.Normalize 4 (Encoder.mk0.Encode true 2048)).range =
      (Decoder.Normalize [] 4 (((Decoder.mk0 4).Decode 2048).2)).range :=
  ⟨by decide,
   C8_range_lockstep Encoder.mk0 (Decoder.mk0 4) [] true 2048
     (by norm_num) (by norm_num) (by decide) (by decide) (by decide)⟩

/-! ## Pool access lemmas -/

theorem length_setN (nodes : List Node) (i : Nat) (nd : Node) :
    (setN nodes i nd).length = nodes.length := List.length_set nodes i nd

theorem getN_oob {nodes : List Node} {i : Nat} (h : nodes.length ≤ i) :
    getN nodes i = defNode := by
  unfold getN
  rw [List.getD_eq_getElem?_getD, List.getElem?_eq_none h]
  rfl

theorem getN_setN (nodes : List Node) (i j : Nat) (nd : Node) :
    getN (setN nodes i nd) j =
      if i = j ∧ i < nodes.length then nd else getN nodes j := by
  show (nodes.set i nd).getD j defNode = _
  rw [List.getD_eq_getElem?_getD, List.getElem?_set]
  by_cases h1 : i = j
  · subst h1
    by_cases h2 : i < nodes.length
    · simp [h2]
    · rw [if_pos rfl, if_neg h2, if_neg (by simp [h2])]
      show defNode = getN nodes i
      rw [getN_oob (Nat.le_of_not_lt h2)]
  · rw [if_neg h1, if_neg (by simp [h1]), ← List.getD_eq_getElem?_getD]
    rfl

theorem getN_setN_self {nodes : List Node} {i : Nat} (h : i < nodes.length) (nd : Node) :
    getN (setN nodes i nd) i = nd := by
  rw [getN_setN, if_pos ⟨rfl, h⟩]

theorem getN_setN_ne {nodes : List Node} {i j : Nat} (h : i ≠ j) (nd : Node) :
    getN (setN nodes i nd) j = getN nodes j := by
  rw [getN_setN, if_neg]
  simp [h]

theorem getN_append_lt {nodes l : List Node} {i : Nat} (h : i < nodes.length) :
    getN (nodes ++ l) i = getN nodes i := by
  unfold getN
  rw [List.getD_eq_getElem?_getD, List.getElem?_append, if_pos h, ← List.getD_eq_getElem?_getD]

theorem getN_append_len (nodes : List Node) (nd : Node) :
    getN (nodes ++ [nd]) nodes.length = nd := by
  unfold getN
  rw [List.getD_eq_getElem?_getD, List.getElem?_concat_length]
  rfl

theorem update_ext0 (bit : Bool) (nd : Node) : (Node.Update bit nd).ext0 = nd.ext0 := rfl

theorem update_ext1 (bit : Bool) (nd : Node) : (Node.Update bit nd).ext1 = nd.ext1 := rfl

theorem update_sfx (bit : Bool) (nd : Node) : (Node.Update bit nd).sfx = nd.sfx := rfl

theorem update_ctr (bit : Bool) (nd : Node) :
    (Node.Update bit nd).ctr = updCtr bit nd.ctr := rfl

theorem updN_length (bit : Bool) (nodes : List Node) (k : Nat) :
    (updN bit nodes k).length = nodes.length := length_setN _ _ _

theorem getN_updN (bit : Bool) (nodes : List Node) (k j : Nat) :
    getN (updN bit nodes k) j =
      if k = j ∧ k < nodes.length then Node.Update bit (getN nodes k) else getN nodes j := by
  unfold updN
  rw [getN_setN]

theorem sameStruct_refl (nodes : List Node) : sameStruct nodes nodes :=
  ⟨rfl, fun _ => ⟨rfl, rfl, rfl⟩⟩

theorem sameStruct_trans {a b c : List Node} (h1 : sameStruct a b) (h2 : sameStruct b c) :
    sameStruct a c := by
  obtain ⟨hl1, hf1⟩ := h1
  obtain ⟨hl2, hf2⟩ := h2
  refine ⟨hl2.trans hl1, fun i => ?_⟩
  obtain ⟨a1, b1, c1⟩ := hf1 i
  obtain ⟨a2, b2, c2⟩ := hf2 i
  exact ⟨a2.trans a1, b2.trans b1, c2.trans c1⟩

theorem updN_struct (bit : Bool) (nodes : List Node) (k : Nat) :
    sameStruct nodes (updN bit nodes k) := by
  refine ⟨updN_length bit nodes k, fun i => ?_⟩
  rw [getN_updN]
  split
  · rename_i hk
    obtain ⟨hk1, hk2⟩ := hk
    subst hk1
    exact ⟨update_ext0 _ _, update_ext1 _ _, update_sfx _ _⟩
  · exact ⟨rfl, rfl, rfl⟩

theorem updN_ctrInv {nodes : List Node} {k : Nat} (bit : Bool)
    (h : ∀ i, i < nodes.length → CtrInv (getN nodes i).ctr) :
    ∀ i, i < (updN bit nodes k).length → CtrInv (getN (updN bit nodes k) i).ctr := by
  intro i hi
  rw [updN_length] at hi
  rw [getN_updN]
  split
  · rename_i hk
    rw [update_ctr]
    exact ctrInv_updCtr (h k hk.2) bit
  · exact h i hi

/-! ## The suffix-descent loop -/

theorem descend_zero (bit : Bool) (nodes : List Node) (lst act : Nat) (order : Int) :
    descend bit 0 nodes lst act order = none := rfl

theorem descend_succ (bit : Bool) (fuel : Nat) (nodes : List Node) (lst act : Nat) (order : Int) :
    descend bit (fuel + 1) nodes lst act order =
      if (getN nodes act).ext bit = 0 then
        descend bit fuel (updN bit nodes (getN nodes act).sfx) act ((getN nodes act).sfx)
          (order - 8)
      else some (nodes, lst, act, order) := rfl

theorem sameStruct_ext {a b : List Node} (h : sameStruct a b) (bit : Bool) (i : Nat) :
    (getN b i).ext bit = (getN a i).ext bit := by
  obtain ⟨-, hf⟩ := h
  obtain ⟨h0, h1, -⟩ := hf i
  cases bit <;> simp [Node.ext, h0, h1]

theorem sameStruct_sfx {a b : List Node} (h : sameStruct a b) (i : Nat) :
    (getN b i).sfx = (getN a i).sfx := (h.2 i).2.2

/-- Termination and postcondition of the descent loop: with fuel act+1, under
the structural invariant, the loop returns, preserves structure and counter
validity, stops at a node with a nonzero extension on the observed bit, and
if it moved at all then the reported lst is in range and still lacks that
extension. -/
theorem descend_spec (bit : Bool) :
    ∀ (fuel : Nat) (nodes : List Node) (lst act : Nat) (order : Int),
      act < fuel → act < nodes.length →
      (getN nodes 0).ext0 = 1 → (getN nodes 0).ext1 = 1 →
      (∀ i, i < nodes.length → i ≠ 0 → (getN nodes i).sfx < i) →
      (∀ i, i < nodes.length → CtrInv (getN nodes i).ctr) →
      ∃ r : List Node × Nat × Nat × Int,
        descend bit fuel nodes lst act order = some r ∧
        sameStruct nodes r.1 ∧
        (∀ i, i < r.1.length → CtrInv (getN r.1 i).ctr) ∧
        r.2.2.1 < nodes.length ∧
        (getN r.1 r.2.2.1).ext bit ≠ 0 ∧
        ((r.2.1 = lst ∧ r.2.2.1 = act) ∨
          (r.2.1 < nodes.length ∧ (getN r.1 r.2.1).ext bit = 0)) := by
  intro fuel
  induction fuel with
  | zero =>
    intro nodes lst act order hf
    omega
  | succ f ih =>
    intro nodes lst act order hf hlen hr0 hr1 hsfx hctr
    rw [descend_succ]
    by_cases hext : (getN nodes act).ext bit = 0
    · rw [if_pos hext]
      have hact0 : act ≠ 0 := by
        intro h0
        subst h0
        cases bit <;> simp [Node.ext, hr0, hr1] at hext
      have hs : (getN nodes act).sfx < act := hsfx act hlen hact0
      have hstruct1 : sameStruct nodes (updN bit nodes (getN nodes act).sfx) :=
        updN_struct bit nodes _
      have hlen1 : (updN bit nodes (getN nodes act).sfx).length = nodes.length :=
        updN_length bit nodes _
      obtain ⟨r, hr, hst, hct, hactlt, hextne, hlst⟩ :=
        ih (updN bit nodes (getN nodes act).sfx) act ((getN nodes act).sfx) (order - 8)
          (by omega) (by omega)
          (by rw [(hstruct1.2 0).1, hr0])
          (by rw [(hstruct1.2 0).2.1, hr1])
          (by
            intro i hi hi0
            rw [hlen1] at hi
            rw [sameStruct_sfx hstruct1]
            exact hsfx i hi hi0)
          (updN_ctrInv bit hctr)
      rw [hlen1] at hactlt
      refine ⟨r, hr, sameStruct_trans hstruct1 hst, hct, hactlt, hextne, ?_⟩
      rcases hlst with ⟨hl1, hl2⟩ | ⟨hl1, hl2⟩
      · right
        refine ⟨by omega, ?_⟩
        rw [hl1, sameStruct_ext hst, sameStruct_ext hstruct1]
        exact hext
      · right
        exact ⟨by omega, hl2⟩
    · rw [if_neg hext]
      exact ⟨(nodes, lst, act, order), rfl, sameStruct_refl _, hctr, hlen, hext,
        Or.inl ⟨rfl, rfl⟩⟩

theorem setExt_ext_same (bit : Bool) (v : Nat) (nd : Node) :
    (Node.setExt bit v nd).ext bit = v := by
  cases bit <;> rfl

theorem setExt_ext_other (bit : Bool) (v : Nat) (nd : Node) :
    (Node.setExt bit v nd).ext (!bit) = nd.ext (!bit) := by
  cases bit <;> rfl

theorem setExt_sfx (bit : Bool) (v : Nat) (nd : Node) :
    (Node.setExt bit v nd).sfx = nd.sfx := by
  cases bit <;> rfl

theorem setExt_ctr (bit : Bool) (v : Nat) (nd : Node) :
    (Node.setExt bit v nd).ctr = nd.ctr := by
  cases bit <;> rfl

theorem extInv {nodes : List Node} (h : NodesInv nodes) {i : Nat}
    (hi : i < nodes.length) (bit : Bool) :
    (getN nodes i).ext bit = 0 ∨
      (i < (getN nodes i).ext bit ∧ (getN nodes i).ext bit < nodes.length) := by
  obtain ⟨-, -, hinv⟩ := h
  obtain ⟨-, he0, he1, -⟩ := hinv i hi
  cases bit
  · exact he0
  · exact he1

theorem rootExt {nodes : List Node} (h : NodesInv nodes) (bit : Bool) :
    (getN nodes 0).ext bit = 1 := by
  obtain ⟨h0, h1, -⟩ := h
  cases bit
  · exact h0
  · exact h1

theorem nodesInv_of_sameStruct {a b : List Node} (hs : sameStruct a b)
    (hc : ∀ i, i < b.length → CtrInv (getN b i).ctr) (h : NodesInv a) : NodesInv b := by
  obtain ⟨h0, h1, hi⟩ := h
  refine ⟨by rw [(hs.2 0).1]; exact h0, by rw [(hs.2 0).2.1]; exact h1, ?_⟩
  intro i hlen
  have hlen' : i < a.length := by
    rw [← hs.1]
    exact hlen
  obtain ⟨-, he0, he1, hsf⟩ := hi i hlen'
  obtain ⟨f0, f1, fs⟩ := hs.2 i
  refine ⟨hc i hlen, ?_, ?_, ?_⟩
  · rw [f0, hs.1]
    exact he0
  · rw [f1, hs.1]
    exact he1
  · rw [fs]
    exact hsf

/-- Growing the trie preserves the structural invariant: redirect the dangling
edge of lst to the fresh index and append the inherited node. -/
theorem nodesInv_grow {nodes : List Node} (bit : Bool) {lst act : Nat}
    (h : NodesInv nodes) (hlst : lst < nodes.length) (hlst0 : (getN nodes lst).ext bit = 0)
    (hact : act < nodes.length) (hext : (getN nodes act).ext bit ≠ 0) :
    NodesInv ((setN nodes lst (Node.setExt bit nodes.length (getN nodes lst))) ++
      [Node.mkInherit ((getN nodes act).ext bit)
        ((getN nodes ((getN nodes act).ext bit)).ctr)]) := by
  have hE : act < (getN nodes act).ext bit ∧ (getN nodes act).ext bit < nodes.length := by
    rcases extInv h hact bit with h0 | h1
    · exact absurd h0 hext
    · exact h1
  have hlst0ne : lst ≠ 0 := by
    intro hz
    rw [hz, rootExt h bit] at hlst0
    omega
  have hsetlen : (setN nodes lst (Node.setExt bit nodes.length (getN nodes lst))).length
      = nodes.length := length_setN _ _ _
  have hlenP : ((setN nodes lst (Node.setExt bit nodes.length (getN nodes lst))) ++
      [Node.mkInherit ((getN nodes act).ext bit)
        ((getN nodes ((getN nodes act).ext bit)).ctr)]).length = nodes.length + 1 := by
    rw [List.length_append, hsetlen]
    rfl
  have hgetlt : ∀ j, j < nodes.length →
      getN ((setN nodes lst (Node.setExt bit nodes.length (getN nodes lst))) ++
        [Node.mkInherit ((getN nodes act).ext bit)
          ((getN nodes ((getN nodes act).ext bit)).ctr)]) j =
      if lst = j ∧ lst < nodes.length then Node.setExt bit nodes.length (getN nodes lst)
      else getN nodes j := by
    intro j hj
    rw [getN_append_lt (by omega), getN_setN]
  have hgetnew :
      getN ((setN nodes lst (Node.setExt bit nodes.length (getN nodes lst))) ++
        [Node.mkInherit ((getN nodes act).ext bit)
          ((getN nodes ((getN nodes act).ext bit)).ctr)]) nodes.length =
      Node.mkInherit ((getN nodes act).ext bit)
        ((getN nodes ((getN nodes act).ext bit)).ctr) := by
    have h1 := getN_append_len (setN nodes lst (Node.setExt bit nodes.length (getN nodes lst)))
      (Node.mkInherit ((getN nodes act).ext bit)
        ((getN nodes ((getN nodes act).ext bit)).ctr))
    rw [hsetlen] at h1
    exact h1
  obtain ⟨hr0, hr1, hinv⟩ := h
  refine ⟨?_, ?_, ?_⟩
  · rw [hgetlt 0 (by omega), if_neg (by simp [hlst0ne])]
    exact hr0
  · rw [hgetlt 0 (by omega), if_neg (by simp [hlst0ne])]
    exact hr1
  · intro i hi
    rw [hlenP] at hi
    rw [hlenP]
    rcases Nat.lt_or_ge i nodes.length with hilt | hige
    · rw [hgetlt i hilt]
      by_cases hcase : lst = i ∧ lst < nodes.length
      · obtain ⟨rfl, -⟩ := hcase
        rw [if_pos ⟨rfl, hlst⟩]
        obtain ⟨hc, he0, he1, hsf⟩ := hinv lst hlst
        cases bit with
        | false =>
          have hf0 : (Node.setExt false nodes.length (getN nodes lst)).ext0 = nodes.length := rfl
          have hf1 : (Node.setExt false nodes.length (getN nodes lst)).ext1 =
            (getN nodes lst).ext1 := rfl
          have hfs : (Node.setExt false nodes.length (getN nodes lst)).sfx =
            (getN nodes lst).sfx := rfl
          have hfc : (Node.setExt false nodes.length (getN nodes lst)).ctr =
            (getN nodes lst).ctr := rfl
          rw [hf0, hf1, hfs, hfc]
          refine ⟨hc, Or.inr ⟨by omega, by omega⟩, ?_, hsf⟩
          rcases he1 with hz | ⟨ha, hb⟩
          · exact Or.inl hz
          · exact Or.inr ⟨ha, by omega⟩
        | true =>
          have hf0 : (Node.setExt true nodes.length (getN nodes lst)).ext0 =
            (getN nodes lst).ext0 := rfl
          have hf1 : (Node.setExt true nodes.length (getN nodes lst)).ext1 = nodes.length := rfl
          have hfs : (Node.setExt true nodes.length (getN nodes lst)).sfx =
            (getN nodes lst).sfx := rfl
          have hfc : (Node.setExt true nodes.length (getN nodes lst)).ctr =
            (getN nodes lst).ctr := rfl
          rw [hf0, hf1, hfs, hfc]
          refine ⟨hc, ?_, Or.inr ⟨by omega, by omega⟩, hsf⟩
          rcases he0 with hz | ⟨ha, hb⟩
          · exact Or.inl hz
          · exact Or.inr ⟨ha, by omega⟩
      · rw [if_neg hcase]
        obtain ⟨hc, he0, he1, hsf⟩ := hinv i hilt
        refine ⟨hc, ?_, ?_, hsf⟩
        · rcases he0 with hz | ⟨ha, hb⟩
          · exact Or.inl hz
          · exact Or.inr ⟨ha, by omega⟩
        · rcases he1 with hz | ⟨ha, hb⟩
          · exact Or.inl hz
          · exact Or.inr ⟨ha, by omega⟩
    · have hieq : i = nodes.length := by omega
      subst hieq
      rw [hgetnew]
      obtain ⟨hcE, -, -, -⟩ := hinv _ hE.2
      refine ⟨ctrInv_mkInherit hcE _, Or.inl rfl, Or.inl rfl, ?_⟩
      intro hne
      show (getN nodes act).ext bit < nodes.length
      exact hE.2

/-- Totality and invariant preservation of PPM::Update. -/
theorem Update_spec {s : PPM} (bit : Bool) (h : StateInv s) :
    ∃ s', PPM.Update bit s = some s' ∧ StateInv s' ∧
      s'.nodesLimit = s.nodesLimit ∧ s'.orderLimitBits = s.orderLimitBits ∧
      s.nodes.length ≤ s'.nodes.length ∧
      (s.nodes.length ≤ s.nodesLimit → s'.nodes.length ≤ s.nodesLimit) := by
  obtain ⟨hact, hni⟩ := h
  have hroot0 : (getN s.nodes 0).ext0 = 1 := hni.1
  have hroot1 : (getN s.nodes 0).ext1 = 1 := hni.2.1
  have hinv := hni.2.2
  have hst0 : sameStruct s.nodes (updN bit s.nodes s.act) := updN_struct bit s.nodes s.act
  have hlen0 : (updN bit s.nodes s.act).length = s.nodes.length := updN_length bit s.nodes s.act
  obtain ⟨r, hr, hst, hct, hactlt, hextne, hlst⟩ :=
    descend_spec bit (s.act + 1) (updN bit s.nodes s.act) s.act s.act s.order
      (by omega) (by omega)
      (by rw [(hst0.2 0).1, hroot0])
      (by rw [(hst0.2 0).2.1, hroot1])
      (by
        intro i hi hi0
        rw [hlen0] at hi
        rw [sameStruct_sfx hst0]
        exact hinv i hi |>.2.2.2 hi0)
      (updN_ctrInv bit (fun i hi => (hinv i hi).1))
  obtain ⟨nodes1, lst1, act1, order1⟩ := r
  simp only at hst hct hactlt hextne hlst
  rw [hlen0] at hactlt
  have hstFull : sameStruct s.nodes nodes1 := sameStruct_trans hst0 hst
  have hlen1 : nodes1.length = s.nodes.length := hstFull.1
  have hni1 : NodesInv nodes1 := nodesInv_of_sameStruct hstFull hct ⟨hroot0, hroot1, hinv⟩
  have hactlt1 : act1 < nodes1.length := by omega
  have hupd : PPM.Update bit s =
      (if act1 ≠ lst1 ∧ order1 + 9 ≤ s.orderLimitBits ∧ nodes1.length < s.nodesLimit then
        some { s with
                nodes := (setN nodes1 lst1
                  (Node.setExt bit nodes1.length (getN nodes1 lst1))) ++
                  [Node.mkInherit ((getN nodes1 act1).ext bit)
                    ((getN nodes1 ((getN nodes1 act1).ext bit)).ctr)]
                act := nodes1.length
                order := order1 + 9 }
      else
        some { s with
                nodes := nodes1
                act := ((getN nodes1 act1).ext bit)
                order := order1 + 1 }) := by
    unfold PPM.Update
    dsimp only
    rw [hr]
  by_cases hgrow : act1 ≠ lst1 ∧ order1 + 9 ≤ s.orderLimitBits ∧ nodes1.length < s.nodesLimit
  · rw [if_pos hgrow] at hupd
    have hlstprop : lst1 < nodes1.length ∧ (getN nodes1 lst1).ext bit = 0 := by
      rcases hlst with ⟨hl1, hl2⟩ | ⟨hl1, hl2⟩
      · exact absurd (hl2.trans hl1.symm) hgrow.1
      · rw [hlen0] at hl1
        exact ⟨by omega, hl2⟩
    have hgrown := nodesInv_grow bit hni1 hlstprop.1 hlstprop.2 hactlt1 hextne
    have hlennew : ((setN nodes1 lst1 (Node.setExt bit nodes1.length (getN nodes1 lst1))) ++
        [Node.mkInherit ((getN nodes1 act1).ext bit)
          ((getN nodes1 ((getN nodes1 act1).ext bit)).ctr)]).length = nodes1.length + 1 := by
      rw [List.length_append, length_setN]
      rfl
    refine ⟨_, hupd, ⟨?_, hgrown⟩, rfl, rfl, ?_, ?_⟩
    · show nodes1.length < _
      rw [hlennew]
      omega
    · show s.nodes.length ≤ _
      rw [hlennew]
      omega
    · intro hcap
      show _ ≤ s.nodesLimit
      rw [hlennew]
      have := hgrow.2.2
      omega
  · rw [if_neg hgrow] at hupd
    have hextlt : (getN nodes1 act1).ext bit < nodes1.length := by
      rcases extInv hni1 hactlt1 bit with h0 | h1
      · exact absurd h0 hextne
      · exact h1.2
    refine ⟨_, hupd, ⟨hextlt, hni1⟩, rfl, rfl, ?_, ?_⟩
    · show s.nodes.length ≤ nodes1.length
      omega
    · intro hcap
      show nodes1.length ≤ s.nodesLimit
      omega

set_option maxRecDepth 10000 in
theorem nodesInv_init : NodesInv initNodes := by decide

theorem initNodes_length : initNodes.length = 256 := by
  simp [initNodes]

theorem stateInv_init (m o : Nat) : StateInv (PPM.mk0 m o) := by
  constructor
  · show (1 : Nat) < initNodes.length
    rw [initNodes_length]
    omega
  · exact nodesInv_init

theorem reach_inv {m o : Nat} {s : PPM} (h : Reach m o s) : StateInv s := by
  induction h with
  | start => exact stateInv_init m o
  | step bit hre hupd ih =>
    obtain ⟨s'', h1, h2, -⟩ := Update_spec bit ih
    rw [h1] at hupd
    cases hupd
    exact h2

/-- Claim C7: the suffix-descent loop of PPM::Update terminates in every
reachable (invariant-satisfying) state: suffix links of non-root nodes point
strictly back, the root keeps ext0 = ext1 = 1, and the loop run with fuel
act+1 returns, ending on a node whose extension on the observed bit is
nonzero (the loop condition fails). -/
theorem C7_descent_terminates :
    ∀ (s : PPM) (bit : Bool), StateInv s →
      ((getN s.nodes 0).ext0 = 1 ∧ (getN s.nodes 0).ext1 = 1) ∧
      (∀ i, i < s.nodes.length → i ≠ 0 → (getN s.nodes i).sfx < i) ∧
      ∃ r, descend bit (s.act + 1) (updN bit s.nodes s.act) s.act s.act s.order = some r ∧
        (getN r.1 r.2.2.1).ext bit ≠ 0 := by
  intro s bit h
  obtain ⟨hact, hni⟩ := h
  refine ⟨⟨hni.1, hni.2.1⟩, fun i hi h0 => (hni.2.2 i hi).2.2.2 h0, ?_⟩
  have hst0 := updN_struct bit s.nodes s.act
  obtain ⟨r, hr, -, -, -, hextne, -⟩ :=
    descend_spec bit (s.act + 1) (updN bit s.nodes s.act) s.act s.act s.order
      (by omega) (by rw [updN_length]; omega)
      (by rw [(hst0.2 0).1]; exact hni.1)
      (by rw [(hst0.2 0).2.1]; exact hni.2.1)
      (by
        intro i hi h0
        rw [updN_length] at hi
        rw [sameStruct_sfx hst0]
        exact (hni.2.2 i hi).2.2.2 h0)
      (updN_ctrInv bit (fun i hi => (hni.2.2 i hi).1))
  exact ⟨r, hr, hextne⟩

theorem C7_witness :
    ((getN (PPM.mk0 1 0).nodes 0).ext0 = 1 ∧ (getN (PPM.mk0 1 0).nodes 0).ext1 = 1) ∧
    (∀ i, i < (PPM.mk0 1 0).nodes.length → i ≠ 0 → (getN (PPM.mk0 1 0).nodes i).sfx < i) ∧
    ∃ r, descend false ((PPM.mk0 1 0).act + 1)
        (updN false (PPM.mk0 1 0).nodes (PPM.mk0 1 0).act) (PPM.mk0 1 0).act (PPM.mk0 1 0).act
        (PPM.mk0 1 0).order = some r ∧ (getN r.1 r.2.2.1).ext false ≠ 0 :=
  C7_descent_terminates (PPM.mk0 1 0) false (stateInv_init 1 0)

/-- Claim C9: every PPM::Update on an invariant-satisfying state succeeds and
preserves the structural trie invariant (extension edges are 0 or strictly
forward inside the pool, suffix links strictly back for non-root nodes), and
the pool never outgrows the arena cap. -/
theorem C9_trie_invariant :
    ∀ (s : PPM) (bit : Bool), StateInv s →
      ∃ s', PPM.Update bit s = some s' ∧ StateInv s' ∧
        (s.nodes.length ≤ s.nodesLimit → s'.nodes.length ≤ s.nodesLimit) := by
  intro s bit h
  obtain ⟨s', h1, h2, -, -, -, h3⟩ := Update_spec bit h
  exact ⟨s', h1, h2, h3⟩

theorem C9_witness :
    ∃ s', PPM.Update true (PPM.mk0 1 0) = some s' ∧ StateInv s' ∧
      ((PPM.mk0 1 0).nodes.length ≤ (PPM.mk0 1 0).nodesLimit →
        s'.nodes.length ≤ (PPM.mk0 1 0).nodesLimit) :=
  C9_trie_invariant (PPM.mk0 1 0) true (stateInv_init 1 0)

/-- Claim C4: Fit0 maps any x in (0, 2^22) to (x >> 10) + 1 - (x >> 21),
strictly between 0 and 4096, so PPM::Predict returns a value in (0, 4096) in
every reachable model state and the coder assertion on p1 never fails. -/
theorem C4_predict_bounds :
    (∀ x, 0 < x → x < 2 ^ 22 →
      Fit0 x 22 12 = (x >>> 10) + 1 - (x >>> 21) ∧
      0 < Fit0 x 22 12 ∧ Fit0 x 22 12 < 4096) ∧
    (∀ m o s, Reach m o s → 0 < PPM.Predict s ∧ PPM.Predict s < 4096) := by
  constructor
  · intro x h0 hx
    exact ⟨rfl, Fit0_bounds h0 hx⟩
  · intro m o s hre
    obtain ⟨hact, hni⟩ := reach_inv hre
    obtain ⟨h1, h2, -⟩ := (hni.2.2 s.act hact).1
    exact Fit0_bounds h1 h2

theorem C4_witness :
    (Fit0 2097152 22 12 = (2097152 >>> 10) + 1 - (2097152 >>> 21) ∧
      0 < Fit0 2097152 22 12 ∧ Fit0 2097152 22 12 < 4096) ∧
    (0 < PPM.Predict (PPM.mk0 1 4) ∧ PPM.Predict (PPM.mk0 1 4) < 4096) :=
  ⟨C4_predict_bounds.1 2097152 (by norm_num) (by norm_num),
   C4_predict_bounds.2 1 4 (PPM.mk0 1 4) Reach.start⟩

/-! ## Byte-string values -/

theorem valBE_foldl : ∀ (l : List Nat) (init : Nat),
    l.foldl (fun a b => a * 256 + b) init = init * 256 ^ l.length + valBE l := by
  intro l
  induction l with
  | nil =>
    intro init
    simp [valBE]
  | cons b t ih =>
    intro init
    show t.foldl _ (init * 256 + b) = init * 256 ^ (b :: t).length + valBE (b :: t)
    rw [ih]
    have h2 : valBE (b :: t) = b * 256 ^ t.length + valBE t := by
      show t.foldl _ (0 * 256 + b) = _
      rw [ih]
      ring_nf
    rw [h2, List.length_cons]
    ring

theorem valBE_cons (b : Nat) (t : List Nat) :
    valBE (b :: t) = b * 256 ^ t.length + valBE t := by
  show t.foldl _ (0 * 256 + b) = _
  rw [valBE_foldl]
  ring_nf

theorem valBE_append (l1 l2 : List Nat) :
    valBE (l1 ++ l2) = valBE l1 * 256 ^ l2.length + valBE l2 := by
  unfold valBE
  rw [List.foldl_append]
  exact valBE_foldl l2 _

theorem valBE_singleton (b : Nat) : valBE [b] = b := by
  simp [valBE]

theorem valBE_replicate_ff (m : Nat) : valBE (List.replicate m 0xFF) = 256 ^ m - 1 := by
  induction m with
  | zero => rfl
  | succ m ih =>
    rw [List.replicate_succ, valBE_cons, List.length_replicate, ih]
    have hp : 0 < (256 : Nat) ^ m := Nat.pos_pow_of_pos m (by norm_num)
    have hs : (256 : Nat) ^ (m + 1) = 256 ^ m * 256 := pow_succ 256 m
    omega

theorem valBE_replicate_zero (m : Nat) : valBE (List.replicate m 0) = 0 := by
  induction m with
  | zero => rfl
  | succ m ih =>
    rw [List.replicate_succ, valBE_cons, List.length_replicate, ih]
    omega

theorem valBE_lt : ∀ (l : List Nat), (∀ b ∈ l, b < 256) → valBE l < 256 ^ l.length := by
  intro l
  induction l with
  | nil =>
    intro
    simp [valBE]
  | cons b t ih =>
    intro hb
    rw [valBE_cons, List.length_cons]
    have h1 : valBE t < 256 ^ t.length := ih (fun x hx => hb x (List.mem_cons_of_mem b hx))
    have h2 : b ≤ 255 := by
      have := hb b (List.mem_cons_self b t)
      omega
    have h3 : b * 256 ^ t.length ≤ 255 * 256 ^ t.length := Nat.mul_le_mul_right _ h2
    have hs : (256 : Nat) ^ (t.length + 1) = 256 ^ t.length * 256 := pow_succ 256 _
    omega

/-- Digit extraction: element j of a byte string is the corresponding
big-endian base-256 digit of its value. -/
theorem valBE_digits : ∀ (l : List Nat), (∀ b ∈ l, b < 256) →
    ∀ j, j < l.length → ∀ dflt, l.getD j dflt = valBE l / 256 ^ (l.length - 1 - j) % 256 := by
  intro l
  induction l with
  | nil =>
    intro _ j hj
    simp at hj
  | cons b t ih =>
    intro hb j hj dflt
    have hbt : ∀ x ∈ t, x < 256 := fun x hx => hb x (List.mem_cons_of_mem b hx)
    have hblt : b < 256 := hb b (List.mem_cons_self b t)
    have hvt : valBE t < 256 ^ t.length := valBE_lt t hbt
    have hP : ∀ m : Nat, 0 < (256 : Nat) ^ m := fun m => Nat.pos_pow_of_pos m (by norm_num)
    cases j with
    | zero =>
      show b = valBE (b :: t) / 256 ^ ((b :: t).length - 1 - 0) % 256
      rw [valBE_cons, List.length_cons]
      have he : t.length + 1 - 1 - 0 = t.length := by omega
      rw [he]
      have h1 : (b * 256 ^ t.length + valBE t) / 256 ^ t.length = b := by
        have hc : b * 256 ^ t.length + valBE t = valBE t + 256 ^ t.length * b := by ring
        rw [hc, Nat.add_mul_div_left _ _ (hP t.length), Nat.div_eq_of_lt hvt]
        omega
      rw [h1, Nat.mod_eq_of_lt hblt]
    | succ j =>
      show t.getD j dflt = valBE (b :: t) / 256 ^ ((b :: t).length - 1 - (j + 1)) % 256
      rw [valBE_cons, List.length_cons]
      have hjt : j < t.length := by
        rw [List.length_cons] at hj
        omega
      have he : t.length + 1 - 1 - (j + 1) = t.length - 1 - j := by omega
      rw [he, ih hbt j hjt dflt]
      have hsplit : b * 256 ^ t.length + valBE t =
          valBE t + 256 ^ (t.length - 1 - j) * (b * 256 ^ (j + 1)) := by
        have hexp : (256 : Nat) ^ (t.length - 1 - j) * 256 ^ (j + 1) = 256 ^ t.length := by
          rw [← pow_add]
          congr 1
          omega
        calc b * 256 ^ t.length + valBE t
            = valBE t + b * (256 ^ (t.length - 1 - j) * 256 ^ (j + 1)) := by rw [hexp]; ring
          _ = valBE t + 256 ^ (t.length - 1 - j) * (b * 256 ^ (j + 1)) := by ring
      rw [hsplit, Nat.add_mul_div_left _ _ (hP _)]
      have hmod : (valBE t / 256 ^ (t.length - 1 - j) + b * 256 ^ (j + 1)) % 256
          = valBE t / 256 ^ (t.length - 1 - j) % 256 := by
        have hc : b * 256 ^ (j + 1) = b * 256 ^ j * 256 := by
          rw [pow_succ]
          ring
        rw [hc, Nat.add_mul_mod_self_right]
      rw [hmod]

/-! ## Abstract coder lemmas -/

theorem anorm_zero (a : ACoder) : ACoder.norm 0 a = a := rfl

theorem anorm_succ (f : Nat) (a : ACoder) :
    ACoder.norm (f + 1) a =
      if a.R ≤ 0xFFFFFF then
        ACoder.norm f { L := a.L * 256, R := a.R * 256, t := a.t + 1 }
      else a := rfl

theorem anorm_t_ge : ∀ (f : Nat) (a : ACoder), a.t ≤ (ACoder.norm f a).t := by
  intro f
  induction f with
  | zero =>
    intro a
    exact Nat.le_refl _
  | succ f ih =>
    intro a
    rw [anorm_succ]
    split
    · calc a.t ≤ a.t + 1 := by omega
        _ ≤ _ := ih { L := a.L * 256, R := a.R * 256, t := a.t + 1 }
    · exact Nat.le_refl _

/-- Renormalization leaves the values L·256^(T-t) and R·256^(T-t) unchanged. -/
theorem anorm_hat : ∀ (f : Nat) (a : ACoder) (T : Nat), (ACoder.norm f a).t ≤ T →
    (ACoder.norm f a).L * 256 ^ (T - (ACoder.norm f a).t) = a.L * 256 ^ (T - a.t) ∧
    (ACoder.norm f a).R * 256 ^ (T - (ACoder.norm f a).t) = a.R * 256 ^ (T - a.t) := by
  intro f
  induction f with
  | zero =>
    intro a T hT
    exact ⟨rfl, rfl⟩
  | succ f ih =>
    intro a T hT
    rw [anorm_succ] at hT ⊢
    by_cases hc : a.R ≤ 0xFFFFFF
    · rw [if_pos hc] at hT ⊢
      obtain ⟨h1, h2⟩ := ih { L := a.L * 256, R := a.R * 256, t := a.t + 1 } T hT
      have ht1 : a.t + 1 ≤ T :=
        le_trans (anorm_t_ge f { L := a.L * 256, R := a.R * 256, t := a.t + 1 }) hT
      have hpow : (256 : Nat) * 256 ^ (T - (a.t + 1)) = 256 ^ (T - a.t) := by
        rw [← pow_succ']
        congr 1
        omega
      refine ⟨?_, ?_⟩
      · rw [h1]
        show a.L * 256 * 256 ^ (T - (a.t + 1)) = a.L * 256 ^ (T - a.t)
        rw [Nat.mul_assoc, hpow]
      · rw [h2]
        show a.R * 256 * 256 ^ (T - (a.t + 1)) = a.R * 256 ^ (T - a.t)
        rw [Nat.mul_assoc, hpow]
    · rw [if_neg hc] at hT ⊢
      exact ⟨rfl, rfl⟩

theorem anorm_exits : ∀ (f : Nat) (a : ACoder), 0 < a.R →
    0xFFFFFF < a.R * 256 ^ f → 0xFFFFFF < (ACoder.norm f a).R := by
  intro f
  induction f with
  | zero =>
    intro a h0 hf
    simpa using hf
  | succ f ih =>
    intro a h0 hf
    rw [anorm_succ]
    split
    · apply ih
      · show 0 < a.R * 256
        omega
      · show 0xFFFFFF < a.R * 256 * 256 ^ f
        calc (0xFFFFFF : Nat) < a.R * 256 ^ (f + 1) := hf
          _ = a.R * 256 * 256 ^ f := by ring
    · omega

theorem anorm_le : ∀ (f : Nat) (a : ACoder), a.R ≤ 0xFFFFFFFF →
    (ACoder.norm f a).R ≤ 0xFFFFFFFF := by
  intro f
  induction f with
  | zero =>
    intro a h
    exact h
  | succ f ih =>
    intro a h
    rw [anorm_succ]
    split
    · apply ih
      show a.R * 256 ≤ 0xFFFFFFFF
      rename_i hc
      omega
    · exact h

/-- One abstract coder step (encode + renormalize) from a renormalized state:
the window invariant is preserved, t grows, and the new interval nests
strictly inside the old one (at the common scale T). -/
theorem aStep_bracket {p1 : Nat} (bit : Bool) {a : ACoder} (h0 : 0 < p1) (h1 : p1 < 4096)
    (hA : AInv a) (T : Nat) (hT : (aStep p1 bit a).t ≤ T) :
    AInv (aStep p1 bit a) ∧ a.t ≤ (aStep p1 bit a).t ∧
    a.L * 256 ^ (T - a.t) ≤ (aStep p1 bit a).L * 256 ^ (T - (aStep p1 bit a).t) ∧
    (aStep p1 bit a).L * 256 ^ (T - (aStep p1 bit a).t) +
      (aStep p1 bit a).R * 256 ^ (T - (aStep p1 bit a).t) ≤
      (a.L + a.R) * 256 ^ (T - a.t) := by
  obtain ⟨hAlo, hAhi⟩ := hA
  obtain ⟨hm0, hm1⟩ := mid_bounds hAlo h0 h1
  have henc : (a.encode bit p1).t = a.t ∧ (a.encode bit p1).R ≤ 0xFFFFFFFF ∧
      0 < (a.encode bit p1).R ∧ a.L ≤ (a.encode bit p1).L ∧
      (a.encode bit p1).L + (a.encode bit p1).R ≤ a.L + a.R := by
    cases bit with
    | true =>
      have hR : (ACoder.encode true p1 a).R = a.R / 4096 * p1 := by
        simp [ACoder.encode]
      have hL : (ACoder.encode true p1 a).L = a.L := by
        simp [ACoder.encode]
      have ht : (ACoder.encode true p1 a).t = a.t := by
        simp [ACoder.encode]
      exact ⟨ht, by rw [hR] <;> omega, by rw [hR] <;> omega, by rw [hL] <;> omega,
        by rw [hL, hR] <;> omega⟩
    | false =>
      have hR : (ACoder.encode false p1 a).R = a.R - a.R / 4096 * p1 := by
        simp [ACoder.encode]
      have hL : (ACoder.encode false p1 a).L = a.L + a.R / 4096 * p1 := by
        simp [ACoder.encode]
      have ht : (ACoder.encode false p1 a).t = a.t := by
        simp [ACoder.encode]
      exact ⟨ht, by rw [hR] <;> omega, by rw [hR] <;> omega, by rw [hL] <;> omega,
        by rw [hL, hR] <;> omega⟩
  obtain ⟨ht, hle, hpos, hL, hLR⟩ := henc
  unfold aStep at hT ⊢
  obtain ⟨hhatL, hhatR⟩ := anorm_hat 4 (a.encode bit p1) T hT
  have htge := anorm_t_ge 4 (a.encode bit p1)
  refine ⟨⟨?_, anorm_le 4 _ hle⟩, by omega, ?_, ?_⟩
  · apply anorm_exits 4 _ hpos
    have h256 : (2 : Nat) ^ 32 ≤ (a.encode bit p1).R * 256 ^ 4 := by
      calc (2 : Nat) ^ 32 = 1 * 256 ^ 4 := by norm_num
        _ ≤ (a.encode bit p1).R * 256 ^ 4 := Nat.mul_le_mul_right _ hpos
    omega
  · rw [hhatL, ht]
    exact Nat.mul_le_mul_right _ hL
  · calc (ACoder.norm 4 (ACoder.encode bit p1 a)).L *
            256 ^ (T - (ACoder.norm 4 (ACoder.encode bit p1 a)).t) +
          (ACoder.norm 4 (ACoder.encode bit p1 a)).R *
            256 ^ (T - (ACoder.norm 4 (ACoder.encode bit p1 a)).t)
        = (ACoder.encode bit p1 a).L * 256 ^ (T - (ACoder.encode bit p1 a).t) +
          (ACoder.encode bit p1 a).R * 256 ^ (T - (ACoder.encode bit p1 a).t) := by
          rw [hhatL, hhatR]
      _ = ((ACoder.encode bit p1 a).L + (ACoder.encode bit p1 a).R) * 256 ^ (T - a.t) := by
          rw [ht]
          ring
      _ ≤ (a.L + a.R) * 256 ^ (T - a.t) := Nat.mul_le_mul_right _ hLR

/-! ## Machine encoder refines the abstract coder -/

theorem encode_refines {e : Encoder} {a : ACoder} (bit : Bool) {p1 : Nat}
    (h0 : 0 < p1) (h1 : p1 < 4096) (hA : AInv a) (hRef : RefE e a) :
    RefE (e.Encode bit p1) (a.encode bit p1) := by
  obtain ⟨hr, hv, hlen, hfl, hff, hob, hsum, hP⟩ := hRef
  obtain ⟨hAlo, hAhi⟩ := hA
  have hrw : 0xFFFFFF < e.range := by omega
  obtain ⟨hm0, hm1⟩ := mid_bounds hrw h0 h1
  have hmid : e.range / 4096 * p1 = a.R / 4096 * p1 := by rw [hr]
  cases bit with
  | true =>
    have he : Encoder.Encode true p1 e = { e with range := e.range / 4096 * p1 } := by
      simp [Encoder.Encode]
    have ha : ACoder.encode true p1 a = { a with R := a.R / 4096 * p1 } := by
      simp [ACoder.encode]
    rw [he, ha]
    refine ⟨hmid, hv, hlen, hfl, hff, hob, ?_, ?_⟩
    · show e.low + e.range / 4096 * p1 ≤ 2 ^ 33
      omega
    · rcases hP with hp | hp
      · left
        show e.low + e.range / 4096 * p1 ≤ 2 ^ 32
        omega
      · right
        exact hp
  | false =>
    have hlt64 : e.low + e.range / 4096 * p1 < 2 ^ 64 := by omega
    have hnw : (e.low + e.range / 4096 * p1) % 2 ^ 64 = e.low + e.range / 4096 * p1 :=
      Nat.mod_eq_of_lt hlt64
    have he : Encoder.Encode false p1 e =
        { e with low := e.low + e.range / 4096 * p1,
                 range := e.range - e.range / 4096 * p1 } := by
      unfold Encoder.Encode
      dsimp only
      rw [if_neg (by simp), ARI_P_SCALE_eq, hnw]
    have ha : ACoder.encode false p1 a =
        { a with L := a.L + a.R / 4096 * p1, R := a.R - a.R / 4096 * p1 } := by
      simp [ACoder.encode]
    rw [he, ha]
    refine ⟨by show e.range - _ = a.R - _; omega, ?_, hlen, hfl, hff, hob, ?_, ?_⟩
    · show valBE (e.out ++ pending e) * 2 ^ 32 + (e.low + e.range / 4096 * p1)
        = a.L + a.R / 4096 * p1
      omega
    · show e.low + e.range / 4096 * p1 + (e.range - e.range / 4096 * p1) ≤ 2 ^ 33
      omega
    · rcases hP with hp | hp
      · left
        show e.low + e.range / 4096 * p1 + (e.range - e.range / 4096 * p1) ≤ 2 ^ 32
        omega
      · right
        exact hp

/-- One renormalization iteration refines one abstract byte shift. -/
theorem normStep_refines {e : Encoder} {a : ACoder} (hpos : 0 < e.range)
    (hcnd : e.range ≤ 0xFFFFFF) (hRef : RefE e a) :
    RefE e.normStep { L := a.L * 256, R := a.R * 256, t := a.t + 1 } := by
  obtain ⟨hr, hv, hlen, hfl, hff, hob, hsum, hP⟩ := hRef
  have hlo_lt : e.low % 2 ^ 32 < 2 ^ 32 := Nat.mod_lt _ (by norm_num)
  have hhi_div : e.low >>> 32 = e.low / 2 ^ 32 := shiftr _ _
  have hlow_eq : e.low = (e.low >>> 32) * 2 ^ 32 + e.low % 2 ^ 32 := by
    rw [hhi_div]
    omega
  have hhi01 : e.low >>> 32 ≤ 1 := by
    rw [hhi_div]
    omega
  have hpendlen : (pending e).length = (e.fluxLen - 1) + 1 := by
    unfold pending
    rw [List.length_cons, List.length_replicate]
  have hpendval : valBE (pending e) =
      e.fluxFst * 256 ^ (e.fluxLen - 1) + (256 ^ (e.fluxLen - 1) - 1) := by
    unfold pending
    rw [valBE_cons, List.length_replicate, valBE_replicate_ff]
  have hpow_pos : (0 : Nat) < 256 ^ (e.fluxLen - 1) := Nat.pos_pow_of_pos _ (by norm_num)
  have hq24 : (e.low % 2 ^ 32) >>> 24 = e.low % 2 ^ 32 / 2 ^ 24 := shiftr _ _
  have hqlt : (e.low % 2 ^ 32) >>> 24 < 256 := by
    rw [hq24]
    omega
  have hlosplit : ((e.low % 2 ^ 32) >>> 24) * 2 ^ 24 + e.low % 2 ^ 32 % 2 ^ 24
      = e.low % 2 ^ 32 := by
    rw [hq24]
    omega
  have hlow' : ((e.low % 2 ^ 32) <<< 8) % 2 ^ 32 = e.low % 2 ^ 32 % 2 ^ 24 * 256 := by
    rw [shiftl]
    have hdecomp : e.low % 2 ^ 32 * 2 ^ 8 =
        e.low % 2 ^ 32 % 2 ^ 24 * 256 + 2 ^ 32 * ((e.low % 2 ^ 32) >>> 24) := by
      rw [hq24]
      have : e.low % 2 ^ 32 = e.low % 2 ^ 32 / 2 ^ 24 * 2 ^ 24 + e.low % 2 ^ 32 % 2 ^ 24 := by
        omega
      calc e.low % 2 ^ 32 * 2 ^ 8
          = (e.low % 2 ^ 32 / 2 ^ 24 * 2 ^ 24 + e.low % 2 ^ 32 % 2 ^ 24) * 2 ^ 8 := by rw [← this]
        _ = e.low % 2 ^ 32 % 2 ^ 24 * 256 + 2 ^ 32 * (e.low % 2 ^ 32 / 2 ^ 24) := by ring
    rw [hdecomp, Nat.add_mul_mod_self_left, Nat.mod_eq_of_lt (by omega)]
  unfold Encoder.normStep
  dsimp only
  by_cases hcond : e.low % 2 ^ 32 < 0xFF000000 ∨ e.low >>> 32 ≠ 0
  · rw [if_pos hcond]
    have hcarrysafe : e.low >>> 32 = 1 → e.fluxFst ≤ 0xFE := by
      intro h1
      rcases hP with hp | hp
      · exfalso
        rw [hhi_div] at h1
        omega
      · exact hp
    have hnewpend : valBE (((e.fluxFst + e.low >>> 32) % 256) ::
        List.replicate (e.fluxLen - 1) ((0xFF + e.low >>> 32) % 256)) =
        valBE (pending e) + e.low >>> 32 := by
      rcases Nat.le_one_iff_eq_zero_or_eq_one.1 hhi01 with h0 | h1
      · rw [h0]
        have hf : (e.fluxFst + 0) % 256 = e.fluxFst := by
          rw [Nat.add_zero, Nat.mod_eq_of_lt hff]
        have hx : (0xFF + 0) % 256 = 0xFF := by norm_num
        rw [hf, hx]
        show valBE (pending e) = valBE (pending e) + 0
        omega
      · rw [h1]
        have hfE := hcarrysafe h1
        have hf : (e.fluxFst + 1) % 256 = e.fluxFst + 1 := Nat.mod_eq_of_lt (by omega)
        have hx : (0xFF + 1) % 256 = 0 := by norm_num
        rw [hf, hx, valBE_cons, List.length_replicate, valBE_replicate_zero, hpendval]
        have : (e.fluxFst + 1) * 256 ^ (e.fluxLen - 1)
            = e.fluxFst * 256 ^ (e.fluxLen - 1) + 256 ^ (e.fluxLen - 1) := by ring
        omega
    have houtlen : (e.out ++ ((e.fluxFst + e.low >>> 32) % 256) ::
        List.replicate (e.fluxLen - 1) ((0xFF + e.low >>> 32) % 256)).length
        = e.out.length + (e.fluxLen - 1) + 1 := by
      rw [List.length_append, List.length_cons, List.length_replicate]
      omega
    have houtval : valBE (e.out ++ ((e.fluxFst + e.low >>> 32) % 256) ::
        List.replicate (e.fluxLen - 1) ((0xFF + e.low >>> 32) % 256))
        = valBE (e.out ++ pending e) + e.low >>> 32 := by
      rw [valBE_append, valBE_append, hnewpend, hpendlen, List.length_cons,
        List.length_replicate]
      omega
    refine ⟨?_, ?_, ?_, ?_, ?_, ?_, ?_, ?_⟩
    · show e.range <<< 8 = a.R * 256
      rw [shiftl, hr]
      norm_num
    · show valBE ((e.out ++ _) ++ pending _) * 2 ^ 32 + ((e.low % 2 ^ 32) <<< 8) % 2 ^ 32
        = a.L * 256
      have hpend' : pending
          { low := ((e.low % 2 ^ 32) <<< 8) % 2 ^ 32
            range := e.range <<< 8
            fluxLen := 1
            fluxFst := (e.low % 2 ^ 32) >>> 24
            out := e.out ++ ((e.fluxFst + e.low >>> 32) % 256) ::
              List.replicate (e.fluxLen - 1) ((0xFF + e.low >>> 32) % 256) }
          = [(e.low % 2 ^ 32) >>> 24] := rfl
      rw [hpend', valBE_append, valBE_singleton, List.length_singleton, houtval, hlow']
      have h256 : (256 : Nat) ^ 1 = 256 := by norm_num
      rw [h256]
      omega
    · show (e.out ++ _).length + 1 = (a.t + 1) + 1
      rw [houtlen]
      omega
    · exact Nat.le_refl 1
    · show (e.low % 2 ^ 32) >>> 24 < 256
      exact hqlt
    · intro b hb
      show b < 256
      rcases List.mem_append.1 hb with h | h
      · exact hob b h
      · rcases List.mem_cons.1 h with h | h
        · rw [h]
          exact Nat.mod_lt _ (by norm_num)
        · rw [List.eq_of_mem_replicate h]
          exact Nat.mod_lt _ (by norm_num)
    · show ((e.low % 2 ^ 32) <<< 8) % 2 ^ 32 + e.range <<< 8 ≤ 2 ^ 33
      rw [hlow', shiftl]
      omega
    · show ((e.low % 2 ^ 32) <<< 8) % 2 ^ 32 + e.range <<< 8 ≤ 2 ^ 32 ∨
        (e.low % 2 ^ 32) >>> 24 ≤ 0xFE
      rw [hlow', shiftl, hq24]
      by_cases hsub : e.low % 2 ^ 32 < 0xFF000000
      · right
        omega
      · left
        have hhi1 : e.low >>> 32 = 1 := by
          rcases hcond with hcl | hcn
          · exact absurd hcl hsub
          · omega
        rw [hhi_div] at hhi1
        omega
  · rw [if_neg hcond]
    push_neg at hcond
    obtain ⟨hge, hhi0⟩ := hcond
    rw [hhi_div] at hhi0
    have hlo_eq_low : e.low % 2 ^ 32 = e.low := by omega
    have hpend' : pending
        { e with
          low := ((e.low % 2 ^ 32) <<< 8) % 2 ^ 32
          range := e.range <<< 8
          fluxLen := e.fluxLen + 1 }
        = e.fluxFst :: List.replicate e.fluxLen 0xFF := rfl
    have hlen1 : e.fluxLen - 1 + 1 = e.fluxLen := by omega
    have hpendval' : valBE (e.fluxFst :: List.replicate e.fluxLen 0xFF)
        = valBE (pending e) * 256 + 255 := by
      rw [valBE_cons, List.length_replicate, valBE_replicate_ff, hpendval]
      have hs : (256 : Nat) ^ e.fluxLen = 256 ^ (e.fluxLen - 1) * 256 := by
        conv_lhs => rw [← hlen1]
        rw [pow_succ]
      rw [hs]
      have h1 : e.fluxFst * (256 ^ (e.fluxLen - 1) * 256)
          = e.fluxFst * 256 ^ (e.fluxLen - 1) * 256 := by ring
      rw [h1]
      omega
    refine ⟨?_, ?_, ?_, Nat.le_add_left 1 e.fluxLen, hff, hob, ?_, ?_⟩
    · show e.range <<< 8 = a.R * 256
      rw [shiftl, hr]
      norm_num
    · show valBE (e.out ++ pending _) * 2 ^ 32 + ((e.low % 2 ^ 32) <<< 8) % 2 ^ 32
        = a.L * 256
      rw [hpend', valBE_append, hpendval', hlow']
      rw [List.length_cons, List.length_replicate]
      have hs : (256 : Nat) ^ (e.fluxLen + 1) = 256 ^ (e.fluxLen - 1 + 1) * 256 := by
        rw [hlen1, pow_succ]
      rw [hs]
      have h1 : valBE e.out * (256 ^ (e.fluxLen - 1 + 1) * 256)
          = valBE e.out * 256 ^ (e.fluxLen - 1 + 1) * 256 := by ring
      rw [h1]
      have hv' : valBE e.out * 256 ^ (e.fluxLen - 1 + 1) * 2 ^ 32 + valBE (pending e) * 2 ^ 32
          + e.low = a.L := by
        rw [← hv, valBE_append, hpendlen]
        ring
      have hq255 : e.low % 2 ^ 32 / 2 ^ 24 = 255 := by omega
      rw [hq24] at hlosplit
      omega
    · show e.out.length + (e.fluxLen + 1) = a.t + 1 + 1
      omega
    · show ((e.low % 2 ^ 32) <<< 8) % 2 ^ 32 + e.range <<< 8 ≤ 2 ^ 33
      rw [hlow', shiftl]
      omega
    · show ((e.low % 2 ^ 32) <<< 8) % 2 ^ 32 + e.range <<< 8 ≤ 2 ^ 32 ∨ e.fluxFst ≤ 0xFE
      rcases hP with hp | hp
      · left
        rw [hlow', shiftl]
        rw [hq24] at hlosplit
        have hq255 : e.low % 2 ^ 32 / 2 ^ 24 = 255 := by omega
        omega
      · right
        exact hp


/-! ## Running the encoder against the abstract coder -/

theorem predict_bounds {s : PPM} (h : StateInv s) :
    0 < s.Predict ∧ s.Predict < 4096 := by
  obtain ⟨hact, hni⟩ := h
  obtain ⟨h1, h2, -⟩ := (hni.2.2 s.act hact).1
  exact Fit0_bounds h1 h2

theorem norm_refines : ∀ (g : Nat) {e : Encoder} {a : ACoder}, 0 < e.range →
    RefE e a → RefE (e.Normalize g) (ACoder.norm g a) := by
  intro g
  induction g with
  | zero =>
    intro e a _ hRef
    rw [normalize_zero, anorm_zero]
    exact hRef
  | succ f ih =>
    intro e a hpos hRef
    rw [normalize_succ, anorm_succ]
    have hr : e.range = a.R := hRef.1
    by_cases hc : e.range ≤ 0xFFFFFF
    · rw [if_pos hc, if_pos (hr ▸ hc)]
      have hpos' : 0 < e.normStep.range := by
        rw [normStep_range]
        omega
      exact ih hpos' (normStep_refines hpos hc hRef)
    · rw [if_neg hc, if_neg (hr ▸ hc)]
      exact hRef

theorem step_refines {e : Encoder} {a : ACoder} (bit : Bool) {p1 : Nat}
    (h0 : 0 < p1) (h1 : p1 < 4096) (hA : AInv a) (hRef : RefE e a) :
    RefE ((e.Encode bit p1).Normalize 4) (aStep p1 bit a) := by
  have hgt : 0xFFFFFF < e.range := by
    rw [hRef.1]
    exact hA.1
  exact norm_refines 4 (Encode_range_pos bit e hgt h0 h1)
    (encode_refines bit h0 h1 hA hRef)

theorem aStep_AInv {p1 : Nat} (bit : Bool) {a : ACoder} (h0 : 0 < p1) (h1 : p1 < 4096)
    (hA : AInv a) : AInv (aStep p1 bit a) :=
  (aStep_bracket bit h0 h1 hA (aStep p1 bit a).t (Nat.le_refl _)).1

theorem encodeByte_succ (c k : Nat) (s : PPM) (e : Encoder) :
    encodeByte c (k + 1) s e =
      match s.Update (decide (c &&& (1 <<< k) ≠ 0)) with
      | none => none
      | some s' => encodeByte c k s'
          ((e.Encode (decide (c &&& (1 <<< k) ≠ 0)) s.Predict).Normalize 4) := rfl

theorem aRunByte_succ (c k : Nat) (s : PPM) (a : ACoder) :
    aRunByte c (k + 1) s a =
      match s.Update (decide (c &&& (1 <<< k) ≠ 0)) with
      | none => none
      | some s' => aRunByte c k s' (aStep s.Predict (decide (c &&& (1 <<< k) ≠ 0)) a) := rfl

theorem encodeByte_run (c : Nat) : ∀ (k : Nat) (s : PPM) (e : Encoder) (a : ACoder),
    StateInv s → AInv a → RefE e a →
    ∃ s' e' a', encodeByte c k s e = some (s', e') ∧ aRunByte c k s a = some (s', a') ∧
      StateInv s' ∧ AInv a' ∧ RefE e' a' := by
  intro k
  induction k with
  | zero =>
    intro s e a hs hA hRef
    exact ⟨s, e, a, rfl, rfl, hs, hA, hRef⟩
  | succ k ih =>
    intro s e a hs hA hRef
    obtain ⟨hp0, hp1⟩ := predict_bounds hs
    obtain ⟨s1, hupd, hs1, -, -, -, -⟩ := Update_spec (decide (c &&& (1 <<< k) ≠ 0)) hs
    obtain ⟨s', e', a', h1, h2, h3, h4, h5⟩ :=
      ih s1 ((e.Encode (decide (c &&& (1 <<< k) ≠ 0)) s.Predict).Normalize 4)
        (aStep s.Predict (decide (c &&& (1 <<< k) ≠ 0)) a) hs1
        (aStep_AInv _ hp0 hp1 hA) (step_refines _ hp0 hp1 hA hRef)
    refine ⟨s', e', a', ?_, ?_, h3, h4, h5⟩
    · rw [encodeByte_succ, hupd]
      exact h1
    · rw [aRunByte_succ, hupd]
      exact h2

theorem encodeBytes_cons (c : Nat) (cs : List Nat) (s : PPM) (e : Encoder) :
    encodeBytes (c :: cs) s e =
      match encodeByte c 8 s e with
      | none => none
      | some (s', e') => encodeBytes cs s' e' := rfl

theorem aRunBytes_cons (c : Nat) (cs : List Nat) (s : PPM) (a : ACoder) :
    aRunBytes (c :: cs) s a =
      match aRunByte c 8 s a with
      | none => none
      | some (s', a') => aRunBytes cs s' a' := rfl

theorem encodeBytes_run : ∀ (cs : List Nat) (s : PPM) (e : Encoder) (a : ACoder),
    StateInv s → AInv a → RefE e a →
    ∃ s' e' a', encodeBytes cs s e = some (s', e') ∧ aRunBytes cs s a = some (s', a') ∧
      StateInv s' ∧ AInv a' ∧ RefE e' a' := by
  intro cs
  induction cs with
  | nil =>
    intro s e a hs hA hRef
    exact ⟨s, e, a, rfl, rfl, hs, hA, hRef⟩
  | cons c cs ih =>
    intro s e a hs hA hRef
    obtain ⟨s1, e1, a1, h1, h2, h3, h4, h5⟩ := encodeByte_run c 8 s e a hs hA hRef
    obtain ⟨s', e', a', g1, g2, g3, g4, g5⟩ := ih s1 e1 a1 h3 h4 h5
    refine ⟨s', e', a', ?_, ?_, g3, g4, g5⟩
    · rw [encodeBytes_cons, h1]
      exact g1
    · rw [aRunBytes_cons, h2]
      exact g2

/-! ## Invariants and interval brackets along an abstract run -/

theorem aencode_t (bit : Bool) (p1 : Nat) (a : ACoder) : (a.encode bit p1).t = a.t := by
  cases bit <;> simp [ACoder.encode]

theorem aencode_R_pos {a : ACoder} {p1 : Nat} (bit : Bool) (h0 : 0 < p1) (h1 : p1 < 4096)
    (hA : AInv a) : 0 < (a.encode bit p1).R := by
  obtain ⟨hm0, hm1⟩ := mid_bounds hA.1 h0 h1
  cases bit
  · show 0 < a.R - a.R / ARI_P_SCALE * p1
    rw [ARI_P_SCALE_eq]
    omega
  · show 0 < a.R / ARI_P_SCALE * p1
    rw [ARI_P_SCALE_eq]
    omega

theorem aRunByte_inv (c : Nat) : ∀ (k : Nat) (s : PPM) (a : ACoder) (s' : PPM) (a' : ACoder),
    StateInv s → AInv a → aRunByte c k s a = some (s', a') →
    StateInv s' ∧ AInv a' ∧ a.t ≤ a'.t := by
  intro k
  induction k with
  | zero =>
    intro s a s' a' hs hA h
    rw [show aRunByte c 0 s a = some (s, a) from rfl] at h
    simp only [Option.some.injEq, Prod.mk.injEq] at h
    obtain ⟨rfl, rfl⟩ := h
    exact ⟨hs, hA, Nat.le_refl _⟩
  | succ k ih =>
    intro s a s' a' hs hA h
    rw [aRunByte_succ] at h
    obtain ⟨hp0, hp1⟩ := predict_bounds hs
    obtain ⟨s1, hupd, hs1, -, -, -, -⟩ := Update_spec (decide (c &&& (1 <<< k) ≠ 0)) hs
    rw [hupd] at h
    obtain ⟨g1, g2, g3⟩ := ih s1 _ s' a' hs1 (aStep_AInv _ hp0 hp1 hA) h
    refine ⟨g1, g2, ?_⟩
    have h4 := anorm_t_ge 4 (a.encode (decide (c &&& (1 <<< k) ≠ 0)) s.Predict)
    have ht := aencode_t (decide (c &&& (1 <<< k) ≠ 0)) s.Predict a
    unfold aStep at g3
    omega

theorem aRunBytes_inv : ∀ (cs : List Nat) (s : PPM) (a : ACoder) (s' : PPM) (a' : ACoder),
    StateInv s → AInv a → aRunBytes cs s a = some (s', a') →
    StateInv s' ∧ AInv a' ∧ a.t ≤ a'.t := by
  intro cs
  induction cs with
  | nil =>
    intro s a s' a' hs hA h
    rw [show aRunBytes [] s a = some (s, a) from rfl] at h
    simp only [Option.some.injEq, Prod.mk.injEq] at h
    obtain ⟨rfl, rfl⟩ := h
    exact ⟨hs, hA, Nat.le_refl _⟩
  | cons c cs ih =>
    intro s a s' a' hs hA h
    rw [aRunBytes_cons] at h
    cases hbyte : aRunByte c 8 s a with
    | none =>
      rw [hbyte] at h
      cases h
    | some r =>
      rw [hbyte] at h
      obtain ⟨g1, g2, g3⟩ := aRunByte_inv c 8 s a r.1 r.2 hs hA (by rw [hbyte])
      obtain ⟨g4, g5, g6⟩ := ih r.1 r.2 s' a' g1 g2 h
      exact ⟨g4, g5, Nat.le_trans g3 g6⟩

theorem aRunByte_bracket (c : Nat) :
    ∀ (k : Nat) (s : PPM) (a : ACoder) (s' : PPM) (a' : ACoder) (T : Nat),
    StateInv s → AInv a → aRunByte c k s a = some (s', a') → a'.t ≤ T →
    a.L * 256 ^ (T - a.t) ≤ a'.L * 256 ^ (T - a'.t) ∧
    a'.L * 256 ^ (T - a'.t) + a'.R * 256 ^ (T - a'.t) ≤ (a.L + a.R) * 256 ^ (T - a.t) := by
  intro k
  induction k with
  | zero =>
    intro s a s' a' T hs hA h hT
    rw [show aRunByte c 0 s a = some (s, a) from rfl] at h
    simp only [Option.some.injEq, Prod.mk.injEq] at h
    obtain ⟨rfl, rfl⟩ := h
    exact ⟨Nat.le_refl _, Nat.le_of_eq (Nat.add_mul _ _ _).symm⟩
  | succ k ih =>
    intro s a s' a' T hs hA h hT
    rw [aRunByte_succ] at h
    obtain ⟨hp0, hp1⟩ := predict_bounds hs
    obtain ⟨s1, hupd, hs1, -, -, -, -⟩ := Update_spec (decide (c &&& (1 <<< k) ≠ 0)) hs
    rw [hupd] at h
    have hAS := aStep_AInv (decide (c &&& (1 <<< k) ≠ 0)) hp0 hp1 hA
    obtain ⟨-, -, htS⟩ := aRunByte_inv c k s1 _ s' a' hs1 hAS h
    obtain ⟨hlo1, hhi1⟩ := ih s1 _ s' a' T hs1 hAS h hT
    obtain ⟨-, -, hlo0, hhi0⟩ :=
      aStep_bracket (decide (c &&& (1 <<< k) ≠ 0)) hp0 hp1 hA T (Nat.le_trans htS hT)
    have hmid : ((aStep s.Predict (decide (c &&& (1 <<< k) ≠ 0)) a).L +
          (aStep s.Predict (decide (c &&& (1 <<< k) ≠ 0)) a).R) *
          256 ^ (T - (aStep s.Predict (decide (c &&& (1 <<< k) ≠ 0)) a).t)
        = (aStep s.Predict (decide (c &&& (1 <<< k) ≠ 0)) a).L *
            256 ^ (T - (aStep s.Predict (decide (c &&& (1 <<< k) ≠ 0)) a).t) +
          (aStep s.Predict (decide (c &&& (1 <<< k) ≠ 0)) a).R *
            256 ^ (T - (aStep s.Predict (decide (c &&& (1 <<< k) ≠ 0)) a).t) :=
      Nat.add_mul _ _ _
    exact ⟨Nat.le_trans hlo0 hlo1,
      Nat.le_trans (Nat.le_trans hhi1 (Nat.le_of_eq hmid)) hhi0⟩

theorem aRunBytes_bracket :
    ∀ (cs : List Nat) (s : PPM) (a : ACoder) (s' : PPM) (a' : ACoder) (T : Nat),
    StateInv s → AInv a → aRunBytes cs s a = some (s', a') → a'.t ≤ T →
    a.L * 256 ^ (T - a.t) ≤ a'.L * 256 ^ (T - a'.t) ∧
    a'.L * 256 ^ (T - a'.t) + a'.R * 256 ^ (T - a'.t) ≤ (a.L + a.R) * 256 ^ (T - a.t) := by
  intro cs
  induction cs with
  | nil =>
    intro s a s' a' T hs hA h hT
    rw [show aRunBytes [] s a = some (s, a) from rfl] at h
    simp only [Option.some.injEq, Prod.mk.injEq] at h
    obtain ⟨rfl, rfl⟩ := h
    exact ⟨Nat.le_refl _, Nat.le_of_eq (Nat.add_mul _ _ _).symm⟩
  | cons c cs ih =>
    intro s a s' a' T hs hA h hT
    rw [aRunBytes_cons] at h
    cases hbyte : aRunByte c 8 s a with
    | none =>
      rw [hbyte] at h
      cases h
    | some r =>
      rw [hbyte] at h
      obtain ⟨g1, g2, -⟩ := aRunByte_inv c 8 s a r.1 r.2 hs hA (by rw [hbyte])
      obtain ⟨-, -, ht2⟩ := aRunBytes_inv cs r.1 r.2 s' a' g1 g2 h
      obtain ⟨hlo1, hhi1⟩ := ih r.1 r.2 s' a' T g1 g2 h hT
      obtain ⟨hlo0, hhi0⟩ := aRunByte_bracket c 8 s a r.1 r.2 T hs hA (by rw [hbyte])
        (Nat.le_trans ht2 hT)
      have hmid : (r.2.L + r.2.R) * 256 ^ (T - r.2.t)
          = r.2.L * 256 ^ (T - r.2.t) + r.2.R * 256 ^ (T - r.2.t) := Nat.add_mul _ _ _
      exact ⟨Nat.le_trans hlo0 hlo1,
        Nat.le_trans (Nat.le_trans hhi1 (Nat.le_of_eq hmid)) hhi0⟩

/-! ## Bit accumulation of the decode loop -/

theorem lor_two_pow_eq_add : ∀ (k x : Nat), x % 2 ^ (k + 1) = 0 →
    x ||| 2 ^ k = x + 2 ^ k := by
  intro k x h
  obtain ⟨m, rfl⟩ : ∃ m, x = 2 ^ (k + 1) * m :=
    ⟨x / 2 ^ (k + 1), (Nat.mul_div_cancel' (Nat.dvd_of_mod_eq_zero h)).symm⟩
  apply Nat.eq_of_testBit_eq
  intro j
  rw [Nat.testBit_lor, Nat.testBit_to_div_mod, Nat.testBit_to_div_mod, Nat.testBit_to_div_mod]
  have h2j : (0 : Nat) < 2 ^ j := Nat.two_pow_pos j
  rcases Nat.lt_trichotomy j k with hj | rfl | hj
  · have hpk : (2 : Nat) ^ k = 2 ^ j * (2 * 2 ^ (k - j - 1)) := by
      rw [← Nat.pow_succ', ← pow_add]
      congr 1
      omega
    have hpk1 : (2 : Nat) ^ (k + 1) = 2 ^ j * (2 * (2 * 2 ^ (k - j - 1))) := by
      rw [← Nat.pow_succ', ← Nat.pow_succ', ← pow_add]
      congr 1
      omega
    have e1 : 2 ^ (k + 1) * m / 2 ^ j % 2 = 0 := by
      rw [hpk1, Nat.mul_assoc, Nat.mul_div_cancel_left _ h2j]
      have hre : 2 * (2 * 2 ^ (k - j - 1)) * m = 2 * (2 * 2 ^ (k - j - 1) * m) := by ring
      rw [hre]
      omega
    have e2 : 2 ^ k / 2 ^ j % 2 = 0 := by
      rw [hpk, Nat.mul_div_cancel_left _ h2j]
      omega
    have e3 : (2 ^ (k + 1) * m + 2 ^ k) / 2 ^ j % 2 = 0 := by
      rw [hpk1, hpk, Nat.mul_assoc, ← Nat.mul_add, Nat.mul_div_cancel_left _ h2j]
      have hre : 2 * (2 * 2 ^ (k - j - 1)) * m + 2 * 2 ^ (k - j - 1)
          = 2 * (2 * 2 ^ (k - j - 1) * m + 2 ^ (k - j - 1)) := by ring
      rw [hre]
      omega
    rw [e1, e2, e3]
    decide
  · have e1 : 2 ^ (j + 1) * m / 2 ^ j % 2 = 0 := by
      have hfac : 2 ^ (j + 1) * m = 2 ^ j * (2 * m) := by
        rw [Nat.pow_succ]
        ring
      rw [hfac, Nat.mul_div_cancel_left _ h2j]
      omega
    have e2 : 2 ^ j / 2 ^ j % 2 = 1 := by
      rw [Nat.div_self h2j]
    have e3 : (2 ^ (j + 1) * m + 2 ^ j) / 2 ^ j % 2 = 1 := by
      have hfac : 2 ^ (j + 1) * m + 2 ^ j = 2 ^ j * (2 * m + 1) := by
        rw [Nat.pow_succ]
        ring
      rw [hfac, Nat.mul_div_cancel_left _ h2j]
      omega
    rw [e1, e2, e3]
    decide
  · have hj1 : (2 : Nat) ^ j = 2 ^ (k + 1) * 2 ^ (j - k - 1) := by
      rw [← pow_add]
      congr 1
      omega
    have hj2 : (2 : Nat) ^ j = 2 ^ k * (2 * 2 ^ (j - k - 1)) := by
      rw [← Nat.pow_succ', ← pow_add]
      congr 1
      omega
    have e1eq : 2 ^ (k + 1) * m / 2 ^ j = m / 2 ^ (j - k - 1) := by
      rw [hj1, Nat.mul_div_mul_left _ _ (Nat.two_pow_pos (k + 1))]
    have e3eq : (2 ^ (k + 1) * m + 2 ^ k) / 2 ^ j = m / 2 ^ (j - k - 1) := by
      have hfac : 2 ^ (k + 1) * m + 2 ^ k = 2 ^ k * (2 * m + 1) := by
        rw [Nat.pow_succ']
        ring
      rw [hfac, hj2, Nat.mul_div_mul_left _ _ (Nat.two_pow_pos k),
        ← Nat.div_div_eq_div_mul]
      have hm2 : (2 * m + 1) / 2 = m := by omega
      rw [hm2]
    have e2 : (2 : Nat) ^ k / 2 ^ j = 0 :=
      Nat.div_eq_of_lt (Nat.pow_lt_pow_right (by omega) hj)
    rw [e1eq, e3eq, e2]
    simp

theorem acc_step_true {c k : Nat} (h : c / 2 ^ k % 2 = 1) :
    (c / 2 ^ (k + 1) * 2 ^ (k + 1)) ||| 1 <<< k = c / 2 ^ k * 2 ^ k := by
  have hsh : (1 : Nat) <<< k = 2 ^ k := by
    rw [shiftl]
    omega
  rw [hsh, lor_two_pow_eq_add k _ (Nat.mul_mod_left _ _)]
  obtain ⟨r, hr⟩ : ∃ r, c / 2 ^ k = 2 * r + 1 := ⟨c / 2 ^ k / 2, by omega⟩
  have hdd : c / 2 ^ (k + 1) = r := by
    rw [Nat.pow_succ, ← Nat.div_div_eq_div_mul, hr]
    omega
  rw [hdd, hr, Nat.pow_succ]
  ring

theorem acc_step_false {c k : Nat} (h : c / 2 ^ k % 2 = 0) :
    c / 2 ^ (k + 1) * 2 ^ (k + 1) = c / 2 ^ k * 2 ^ k := by
  obtain ⟨r, hr⟩ : ∃ r, c / 2 ^ k = 2 * r := ⟨c / 2 ^ k / 2, by omega⟩
  have hdd : c / 2 ^ (k + 1) = r := by
    rw [Nat.pow_succ, ← Nat.div_div_eq_div_mul, hr]
    omega
  rw [hdd, hr, Nat.pow_succ]
  ring

theorem and_pow_bit (c k : Nat) :
    (c &&& 1 <<< k ≠ 0) ↔ c / 2 ^ k % 2 = 1 := by
  have hsh : (1 : Nat) <<< k = 2 ^ k := by
    rw [shiftl]
    omega
  rw [hsh, Nat.and_two_pow, Nat.testBit_to_div_mod]
  have hp := Nat.two_pow_pos k
  constructor
  · intro hne
    by_contra h1
    rw [decide_eq_false h1] at hne
    exact hne (Nat.zero_mul _)
  · intro h1
    rw [decide_eq_true h1]
    show 1 * 2 ^ k ≠ 0
    omega

/-! ## Decoder refinement: single decision -/

theorem decode_step {code : List Nat} {W T : Nat} {d : Decoder} {a : ACoder} {p1 : Nat}
    (bit : Bool) (h0 : 0 < p1) (h1 : p1 < 4096) (hA : AInv a)
    (hRef : RefD code W T d a)
    (hlo : (a.encode bit p1).L * 256 ^ (T - a.t) ≤ W)
    (hhi : W < ((a.encode bit p1).L + (a.encode bit p1).R) * 256 ^ (T - a.t)) :
    (d.Decode p1).1 = bit ∧ RefD code W T (d.Decode p1).2 (a.encode bit p1) := by
  obtain ⟨hr, hpos, htT, hv⟩ := hRef
  obtain ⟨hm0, hm1⟩ := mid_bounds hA.1 h0 h1
  have hspos : (0 : Nat) < 256 ^ (T - a.t) := Nat.pos_pow_of_pos _ (by norm_num)
  cases bit with
  | false =>
    have hLe : (ACoder.encode false p1 a).L = a.L + a.R / 4096 * p1 := by
      simp [ACoder.encode]
    have hRe : (ACoder.encode false p1 a).R = a.R - a.R / 4096 * p1 := by
      simp [ACoder.encode]
    have hte : (ACoder.encode false p1 a).t = a.t := by
      simp [ACoder.encode]
    have hmle : a.R / 4096 * p1 ≤ d.cml := by
      have h2 : (a.L + a.R / 4096 * p1) * 256 ^ (T - a.t) ≤ W := by
        rw [← hLe]
        exact hlo
      have h3 : a.L + a.R / 4096 * p1 ≤ W / 256 ^ (T - a.t) :=
        (Nat.le_div_iff_mul_le hspos).2 h2
      omega
    have hnc : ¬(d.cml < d.range / ARI_P_SCALE * p1) := by
      rw [ARI_P_SCALE_eq, hr]
      omega
    have hDec : d.Decode p1 = (false,
        { d with cml := d.cml - d.range / ARI_P_SCALE * p1,
                 range := d.range - d.range / ARI_P_SCALE * p1 }) := by
      unfold Decoder.Decode
      dsimp only
      rw [if_neg hnc]
    rw [hDec]
    refine ⟨rfl, ?_, ?_, ?_, ?_⟩
    · show d.range - d.range / ARI_P_SCALE * p1 = (ACoder.encode false p1 a).R
      rw [hRe, hr, ARI_P_SCALE_eq]
    · show d.pos = (ACoder.encode false p1 a).t + 9
      rw [hte]
      exact hpos
    · rw [hte]
      exact htT
    · show d.cml - d.range / ARI_P_SCALE * p1 + (ACoder.encode false p1 a).L
        = W / 256 ^ (T - (ACoder.encode false p1 a).t)
      rw [hLe, hte, hr, ARI_P_SCALE_eq]
      omega
  | true =>
    have hLe : (ACoder.encode true p1 a).L = a.L := by
      simp [ACoder.encode]
    have hRe : (ACoder.encode true p1 a).R = a.R / 4096 * p1 := by
      simp [ACoder.encode]
    have hte : (ACoder.encode true p1 a).t = a.t := by
      simp [ACoder.encode]
    have hclt : d.cml < a.R / 4096 * p1 := by
      have h2 : W < (a.L + a.R / 4096 * p1) * 256 ^ (T - a.t) := by
        rw [← hLe, ← hRe]
        exact hhi
      have h3 : W / 256 ^ (T - a.t) < a.L + a.R / 4096 * p1 :=
        (Nat.div_lt_iff_lt_mul hspos).2 h2
      omega
    have hc : d.cml < d.range / ARI_P_SCALE * p1 := by
      rw [ARI_P_SCALE_eq, hr]
      exact hclt
    have hDec : d.Decode p1 = (true, { d with range := d.range / ARI_P_SCALE * p1 }) := by
      unfold Decoder.Decode
      dsimp only
      rw [if_pos hc]
    rw [hDec]
    refine ⟨rfl, ?_, ?_, ?_, ?_⟩
    · show d.range / ARI_P_SCALE * p1 = (ACoder.encode true p1 a).R
      rw [hRe, hr, ARI_P_SCALE_eq]
    · show d.pos = (ACoder.encode true p1 a).t + 9
      rw [hte]
      exact hpos
    · rw [hte]
      exact htT
    · show d.cml + (ACoder.encode true p1 a).L = W / 256 ^ (T - (ACoder.encode true p1 a).t)
      rw [hLe, hte]
      exact hv

/-! ## Decoder refinement: renormalization lockstep -/

theorem dnorm_refines {code : List Nat} {W T : Nat} :
    ∀ (f : Nat) (d : Decoder) (a : ACoder),
    CodeMatch code W T → RefD code W T d a →
    W < (a.L + a.R) * 256 ^ (T - a.t) →
    (ACoder.norm f a).t ≤ T →
    RefD code W T (Decoder.Normalize code f d) (ACoder.norm f a) := by
  intro f
  induction f with
  | zero =>
    intro d a _ hRef _ _
    rw [dnormalize_zero, anorm_zero]
    exact hRef
  | succ f ih =>
    intro d a hCM hRef hup hT
    obtain ⟨hr, hpos, htT, hv⟩ := hRef
    rw [dnormalize_succ, anorm_succ]
    rw [anorm_succ] at hT
    by_cases hc : a.R ≤ 0xFFFFFF
    · rw [if_pos (show d.range ≤ 0xFFFFFF by rw [hr]; exact hc), if_pos hc]
      rw [if_pos hc] at hT
      have hmono := anorm_t_ge f { L := a.L * 256, R := a.R * 256, t := a.t + 1 }
      have hlit : ({ L := a.L * 256, R := a.R * 256, t := a.t + 1 } : ACoder).t = a.t + 1 := rfl
      rw [hlit] at hmono
      have ht1 : a.t + 1 ≤ T := Nat.le_trans hmono hT
      have hspos : (0 : Nat) < 256 ^ (T - a.t) := Nat.pos_pow_of_pos _ (by norm_num)
      have hexp : (256 : Nat) ^ (T - a.t) = 256 ^ (T - (a.t + 1)) * 256 := by
        rw [← Nat.pow_succ]
        congr 1
        omega
      have hcml_lt : d.cml < a.R := by
        have h3 : W / 256 ^ (T - a.t) < a.L + a.R := (Nat.div_lt_iff_lt_mul hspos).2 hup
        omega
      have hdigit : getByte code (a.t + 9) = W / 256 ^ (T + 4 - (a.t + 5)) % 256 :=
        hCM (a.t + 5) (by omega)
      have hexp2 : T + 4 - (a.t + 5) = T - (a.t + 1) := by omega
      rw [hexp2] at hdigit
      apply ih
      · exact hCM
      · refine ⟨?_, ?_, ?_, ?_⟩
        · show d.range <<< 8 = a.R * 256
          rw [shiftl, hr]
          norm_num
        · show d.pos + 1 = (a.t + 1) + 9
          omega
        · exact ht1
        · show ((d.cml <<< 8) % 2 ^ 32 + getByte code d.pos) % 2 ^ 32 + a.L * 256
            = W / 256 ^ (T - (a.t + 1))
          rw [hpos, hdigit, shiftl]
          have hu256 : W / 256 ^ (T - (a.t + 1)) / 256 = W / 256 ^ (T - a.t) := by
            rw [Nat.div_div_eq_div_mul, ← Nat.pow_succ]
            congr 2
            omega
          have h28 : (2 : Nat) ^ 8 = 256 := by norm_num
          rw [h28]
          omega
      · show W < (a.L * 256 + a.R * 256) * 256 ^ (T - (a.t + 1))
        have : (a.L * 256 + a.R * 256) * 256 ^ (T - (a.t + 1))
            = (a.L + a.R) * (256 ^ (T - (a.t + 1)) * 256) := by ring
        rw [this, ← hexp]
        exact hup
      · exact hT
    · rw [if_neg (show ¬d.range ≤ 0xFFFFFF by rw [hr]; exact hc), if_neg hc]
      exact ⟨hr, hpos, htT, hv⟩

/-! ## FlushBuffer: the emitted stream is the exact final low value -/

theorem flush_spec {e : Encoder} {a : ACoder} (hRpos : 0 < e.range) (hRef : RefE e a) :
    valBE e.FlushBuffer = a.L ∧ e.FlushBuffer.length = a.t + 5 ∧
    ∀ b ∈ e.FlushBuffer, b < 256 := by
  obtain ⟨hr, hv, hlen, hfl, hff, hob, hsum, hP⟩ := hRef
  have hhi_div : e.low >>> 32 = e.low / 2 ^ 32 := shiftr _ _
  have hlow_eq : e.low = (e.low >>> 32) * 2 ^ 32 + e.low % 2 ^ 32 := by
    rw [hhi_div]
    omega
  have hhi01 : e.low >>> 32 ≤ 1 := by
    rw [hhi_div]
    omega
  have hpendlen : (pending e).length = (e.fluxLen - 1) + 1 := by
    unfold pending
    rw [List.length_cons, List.length_replicate]
  have hpendval : valBE (pending e) =
      e.fluxFst * 256 ^ (e.fluxLen - 1) + (256 ^ (e.fluxLen - 1) - 1) := by
    unfold pending
    rw [valBE_cons, List.length_replicate, valBE_replicate_ff]
  have hcarrysafe : e.low >>> 32 = 1 → e.fluxFst ≤ 0xFE := by
    intro h1
    rcases hP with hp | hp
    · exfalso
      rw [hhi_div] at h1
      omega
    · exact hp
  have hnewpend : valBE (((e.fluxFst + e.low >>> 32) % 256) ::
      List.replicate (e.fluxLen - 1) ((0xFF + e.low >>> 32) % 256)) =
      valBE (pending e) + e.low >>> 32 := by
    rcases Nat.le_one_iff_eq_zero_or_eq_one.1 hhi01 with h0 | h1
    · rw [h0]
      have hf : (e.fluxFst + 0) % 256 = e.fluxFst := by
        rw [Nat.add_zero, Nat.mod_eq_of_lt hff]
      have hx : (0xFF + 0) % 256 = 0xFF := by norm_num
      rw [hf, hx]
      show valBE (pending e) = valBE (pending e) + 0
      omega
    · rw [h1]
      have hfE := hcarrysafe h1
      have hf : (e.fluxFst + 1) % 256 = e.fluxFst + 1 := Nat.mod_eq_of_lt (by omega)
      have hx : (0xFF + 1) % 256 = 0 := by norm_num
      rw [hf, hx, valBE_cons, List.length_replicate, valBE_replicate_zero, hpendval]
      have hpow_pos : (0 : Nat) < 256 ^ (e.fluxLen - 1) := Nat.pos_pow_of_pos _ (by norm_num)
      have : (e.fluxFst + 1) * 256 ^ (e.fluxLen - 1)
          = e.fluxFst * 256 ^ (e.fluxLen - 1) + 256 ^ (e.fluxLen - 1) := by ring
      omega
  have hfourval : valBE [((e.low % 2 ^ 32) >>> 24) % 256, ((e.low % 2 ^ 32) >>> 16) % 256,
      ((e.low % 2 ^ 32) >>> 8) % 256, (e.low % 2 ^ 32) % 256] = e.low % 2 ^ 32 := by
    show List.foldl _ 0 _ = _
    simp only [List.foldl_cons, List.foldl_nil]
    rw [shiftr, shiftr, shiftr]
    omega
  unfold Encoder.FlushBuffer
  refine ⟨?_, ?_, ?_⟩
  · rw [valBE_append, valBE_append, hnewpend]
    rw [hfourval]
    rw [List.length_cons, List.length_replicate]
    rw [show ([((e.low % 2 ^ 32) >>> 24) % 256, ((e.low % 2 ^ 32) >>> 16) % 256,
      ((e.low % 2 ^ 32) >>> 8) % 256, (e.low % 2 ^ 32) % 256] : List Nat).length = 4 from rfl]
    have hvA : (valBE e.out * 256 ^ ((e.fluxLen - 1) + 1) + valBE (pending e)) * 2 ^ 32 + e.low
        = a.L := by
      rw [← hpendlen, ← valBE_append]
      exact hv
    have h2564 : (256 : Nat) ^ 4 = 2 ^ 32 := by norm_num
    rw [h2564]
    omega
  · rw [List.length_append, List.length_append, List.length_cons, List.length_replicate]
    rw [show ([((e.low % 2 ^ 32) >>> 24) % 256, ((e.low % 2 ^ 32) >>> 16) % 256,
      ((e.low % 2 ^ 32) >>> 8) % 256, (e.low % 2 ^ 32) % 256] : List Nat).length = 4 from rfl]
    omega
  · intro b hb
    rcases List.mem_append.1 hb with h | h
    · rcases List.mem_append.1 h with h | h
      · exact hob b h
      · rcases List.mem_cons.1 h with h | h
        · rw [h]
          exact Nat.mod_lt _ (by norm_num)
        · rw [List.eq_of_mem_replicate h]
          exact Nat.mod_lt _ (by norm_num)
    · simp only [List.mem_cons, List.not_mem_nil, or_false] at h
      rcases h with h | h | h | h <;> rw [h] <;> exact Nat.mod_lt _ (by norm_num)

/-! ## The compressed stream carries the digits of the final low value -/

theorem flush_codeMatch {F : List Nat} {W T : Nat} (pre : List Nat) (hpre : pre.length = 4)
    (hlen : F.length = T + 5) (hb : ∀ b ∈ F, b < 256) (hv : valBE F = W) :
    CodeMatch (pre ++ F) W T := by
  intro j hj
  unfold getByte
  rw [List.getD_append_right _ _ _ _ (by omega)]
  have hidx : j + 4 - pre.length = j := by omega
  rw [hidx]
  rw [valBE_digits F hb j (by omega), hv, hlen]
  have hexp : T + 5 - 1 - j = T + 4 - j := by omega
  rw [hexp]

/-! ## FillBuffer: the decoder starts at the top five digits -/

theorem cml_step {u v g : Nat} (hu : u = v / 256) (hg : g = v % 256) (hv : v < 2 ^ 32) :
    ((u <<< 8) % 2 ^ 32 + g) % 2 ^ 32 = v := by
  subst hu hg
  rw [shiftl]
  have h28 : (2 : Nat) ^ 8 = 256 := by norm_num
  rw [h28]
  omega

theorem fillBuffer_spec {code : List Nat} {W T : Nat} (hCM : CodeMatch code W T)
    (hWlt : W < 4294967295 * 256 ^ T) :
    Decoder.FillBuffer code (Decoder.mk0 4)
      = { range := 0xFFFFFFFF, cml := W / 256 ^ T, pos := 9 } := by
  have hstep : ∀ i : Nat, W / 256 ^ (T + i) / 256 = W / 256 ^ (T + i + 1) := by
    intro i
    rw [Nat.div_div_eq_div_mul, ← Nat.pow_succ]
  have hT0 : W / 256 ^ T < 2 ^ 32 := by
    have h := (Nat.div_lt_iff_lt_mul (Nat.pos_pow_of_pos T (by norm_num : (0:Nat) < 256))).2 hWlt
    omega
  have hlt : ∀ i : Nat, W / 256 ^ (T + i) < 2 ^ 32 := by
    intro i
    induction i with
    | zero => exact hT0
    | succ i ih =>
      show W / 256 ^ (T + i + 1) < 2 ^ 32
      rw [← hstep i]
      have h := Nat.div_le_self (W / 256 ^ (T + i)) 256
      omega
  have hW4 : W / 256 ^ (T + 4) = 0 := by
    apply Nat.div_eq_of_lt
    have hp : (0 : Nat) < 256 ^ T := Nat.pos_pow_of_pos T (by norm_num)
    have h4 : (256 : Nat) ^ (T + 4) = 256 ^ T * 4294967296 := by
      rw [pow_add]
      norm_num
    rw [h4]
    have h5 : (4294967295 : Nat) * 256 ^ T < 4294967296 * 256 ^ T :=
      (Nat.mul_lt_mul_right hp).2 (by norm_num)
    calc W < 4294967295 * 256 ^ T := hWlt
      _ < 4294967296 * 256 ^ T := h5
      _ = 256 ^ T * 4294967296 := by ring
  have hg4 : getByte code 4 = W / 256 ^ (T + 4) % 256 := hCM 0 (by omega)
  have hg5 : getByte code 5 = W / 256 ^ (T + 3) % 256 := hCM 1 (by omega)
  have hg6 : getByte code 6 = W / 256 ^ (T + 2) % 256 := hCM 2 (by omega)
  have hg7 : getByte code 7 = W / 256 ^ (T + 1) % 256 := hCM 3 (by omega)
  have hg8 : getByte code 8 = W / 256 ^ T % 256 := hCM 4 (by omega)
  have hm1 : (((0) <<< 8) % 2 ^ 32 + getByte code 4) % 2 ^ 32 = W / 256 ^ (T + 4) :=
    cml_step (by rw [hW4]) hg4 (hlt 4)
  have hm2 : ((((((0) <<< 8) % 2 ^ 32 + getByte code 4) % 2 ^ 32) <<< 8) % 2 ^ 32 + getByte code 5) % 2 ^ 32 = W / 256 ^ (T + 3) := by
    rw [hm1]
    exact cml_step (hstep 3).symm hg5 (hlt 3)
  have hm3 : (((((((((0) <<< 8) % 2 ^ 32 + getByte code 4) % 2 ^ 32) <<< 8) % 2 ^ 32 + getByte code 5) % 2 ^ 32) <<< 8) % 2 ^ 32 + getByte code 6) % 2 ^ 32 = W / 256 ^ (T + 2) := by
    rw [hm2]
    exact cml_step (hstep 2).symm hg6 (hlt 2)
  have hm4 : ((((((((((((0) <<< 8) % 2 ^ 32 + getByte code 4) % 2 ^ 32) <<< 8) % 2 ^ 32 + getByte code 5) % 2 ^ 32) <<< 8) % 2 ^ 32 + getByte code 6) % 2 ^ 32) <<< 8) % 2 ^ 32 + getByte code 7) % 2 ^ 32 = W / 256 ^ (T + 1) := by
    rw [hm3]
    exact cml_step (hstep 1).symm hg7 (hlt 1)
  have hm5 : (((((((((((((((0) <<< 8) % 2 ^ 32 + getByte code 4) % 2 ^ 32) <<< 8) % 2 ^ 32 + getByte code 5) % 2 ^ 32) <<< 8) % 2 ^ 32 + getByte code 6) % 2 ^ 32) <<< 8) % 2 ^ 32 + getByte code 7) % 2 ^ 32) <<< 8) % 2 ^ 32 + getByte code 8) % 2 ^ 32 = W / 256 ^ T := by
    rw [hm4]
    exact cml_step (hstep 0).symm hg8 hT0
  have hfinal : Decoder.FillBuffer code (Decoder.mk0 4)
      = { range := 0xFFFFFFFF
          cml := (((((((((((((((0) <<< 8) % 2 ^ 32 + getByte code 4) % 2 ^ 32) <<< 8) % 2 ^ 32 + getByte code 5) % 2 ^ 32) <<< 8) % 2 ^ 32 + getByte code 6) % 2 ^ 32) <<< 8) % 2 ^ 32 + getByte code 7) % 2 ^ 32) <<< 8) % 2 ^ 32 + getByte code 8) % 2 ^ 32
          pos := 9 } := rfl
  rw [hfinal, hm5]

/-! ## Running the decoder against the abstract run -/

theorem decodeByte_succ (code : List Nat) (k : Nat) (s : PPM) (d : Decoder) (c : Nat) :
    decodeByte code (k + 1) s d c =
      match s.Update (d.Decode s.Predict).1 with
      | none => none
      | some s' => decodeByte code k s' (((d.Decode s.Predict).2).Normalize code 4)
          (if (d.Decode s.Predict).1 then c ||| (1 <<< k) else c) := rfl

theorem decodeBytes_succ (code : List Nat) (n : Nat) (s : PPM) (d : Decoder) :
    decodeBytes code (n + 1) s d =
      match decodeByte code 8 s d 0 with
      | none => none
      | some (s', d', c) =>
        match decodeBytes code n s' d' with
        | none => none
        | some (s'', d'', cs) => some (s'', d'', c :: cs) := rfl

theorem decodeByte_run {code : List Nat} {W T : Nat} {cs' : List Nat} {sF : PPM} {aF : ACoder}
    (hWL : aF.L = W) (hWT : aF.t = T) (hCM : CodeMatch code W T) :
    ∀ (k c : Nat) (s : PPM) (a : ACoder) (d : Decoder) (s1 : PPM) (a1 : ACoder),
    c < 256 →
    StateInv s → AInv a → RefD code W T d a →
    aRunByte c k s a = some (s1, a1) →
    aRunBytes cs' s1 a1 = some (sF, aF) →
    ∃ d1, decodeByte code k s d (c / 2 ^ k * 2 ^ k) = some (s1, d1, c) ∧
      RefD code W T d1 a1 ∧ StateInv s1 ∧ AInv a1 := by
  intro k
  induction k with
  | zero =>
    intro c s a d s1 a1 hc hs hA hRef h1 h2
    rw [show aRunByte c 0 s a = some (s, a) from rfl] at h1
    simp only [Option.some.injEq, Prod.mk.injEq] at h1
    obtain ⟨rfl, rfl⟩ := h1
    refine ⟨d, ?_, hRef, hs, hA⟩
    have hacc : c / 2 ^ 0 * 2 ^ 0 = c := by omega
    rw [hacc]
    rfl
  | succ k ih =>
    intro c s a d s1 a1 hc hs hA hRef h1 h2
    rw [aRunByte_succ] at h1
    obtain ⟨hp0, hp1⟩ := predict_bounds hs
    obtain ⟨s2, hupd, hs2, -, -, -, -⟩ := Update_spec (decide (c &&& (1 <<< k) ≠ 0)) hs
    rw [hupd] at h1
    have hAS : AInv (aStep s.Predict (decide (c &&& (1 <<< k) ≠ 0)) a) :=
      aStep_AInv _ hp0 hp1 hA
    obtain ⟨hs1, hA1, ht1⟩ := aRunByte_inv c k s2 _ s1 a1 hs2 hAS h1
    obtain ⟨hsF, hAF, htF⟩ := aRunBytes_inv cs' s1 a1 sF aF hs1 hA1 h2
    have htST : (aStep s.Predict (decide (c &&& (1 <<< k) ≠ 0)) a).t ≤ T := by
      rw [← hWT]
      omega
    obtain ⟨hlo1, hhi1⟩ := aRunByte_bracket c k s2 _ s1 a1 T hs2 hAS h1 (by rw [← hWT]; omega)
    obtain ⟨hlo2, hhi2⟩ :=
      aRunBytes_bracket cs' s1 a1 sF aF T hs1 hA1 h2 (Nat.le_of_eq hWT)
    have hW0 : aF.L * 256 ^ (T - aF.t) = W := by
      rw [hWT, Nat.sub_self, pow_zero, Nat.mul_one, hWL]
    have hWR : aF.R * 256 ^ (T - aF.t) = aF.R := by
      rw [hWT, Nat.sub_self, pow_zero, Nat.mul_one]
    rw [hW0] at hlo2
    rw [hW0, hWR] at hhi2
    have hloS : (aStep s.Predict (decide (c &&& (1 <<< k) ≠ 0)) a).L *
        256 ^ (T - (aStep s.Predict (decide (c &&& (1 <<< k) ≠ 0)) a).t) ≤ W :=
      Nat.le_trans hlo1 hlo2
    have hadd1 : (a1.L + a1.R) * 256 ^ (T - a1.t)
        = a1.L * 256 ^ (T - a1.t) + a1.R * 256 ^ (T - a1.t) := Nat.add_mul _ _ _
    have hAFpos : 1 ≤ aF.R := by
      have := hAF.1
      omega
    have hhiS : W < (aStep s.Predict (decide (c &&& (1 <<< k) ≠ 0)) a).L *
          256 ^ (T - (aStep s.Predict (decide (c &&& (1 <<< k) ≠ 0)) a).t)
        + (aStep s.Predict (decide (c &&& (1 <<< k) ≠ 0)) a).R *
          256 ^ (T - (aStep s.Predict (decide (c &&& (1 <<< k) ≠ 0)) a).t) := by
      rw [Nat.add_mul] at hhi1
      omega
    unfold aStep at hloS hhiS htST
    obtain ⟨hhatL, hhatR⟩ :=
      anorm_hat 4 (ACoder.encode (decide (c &&& (1 <<< k) ≠ 0)) s.Predict a) T htST
    rw [hhatL] at hloS
    rw [hhatL, hhatR] at hhiS
    rw [aencode_t] at hloS hhiS
    have hloE : (ACoder.encode (decide (c &&& (1 <<< k) ≠ 0)) s.Predict a).L *
        256 ^ (T - a.t) ≤ W := hloS
    have hhiE : W < ((ACoder.encode (decide (c &&& (1 <<< k) ≠ 0)) s.Predict a).L +
        (ACoder.encode (decide (c &&& (1 <<< k) ≠ 0)) s.Predict a).R) * 256 ^ (T - a.t) := by
      rw [Nat.add_mul]
      exact hhiS
    obtain ⟨hfst, hRefD⟩ :=
      decode_step (decide (c &&& (1 <<< k) ≠ 0)) hp0 hp1 hA hRef hloE hhiE
    have hupEnc : W < ((ACoder.encode (decide (c &&& (1 <<< k) ≠ 0)) s.Predict a).L +
        (ACoder.encode (decide (c &&& (1 <<< k) ≠ 0)) s.Predict a).R) *
        256 ^ (T - (ACoder.encode (decide (c &&& (1 <<< k) ≠ 0)) s.Predict a).t) := by
      rw [aencode_t]
      exact hhiE
    have hRefN : RefD code W T
        ((Decoder.Normalize code 4) (d.Decode s.Predict).2)
        (ACoder.norm 4 (ACoder.encode (decide (c &&& (1 <<< k) ≠ 0)) s.Predict a)) :=
      dnorm_refines 4 (d.Decode s.Predict).2 _ hCM hRefD hupEnc htST
    obtain ⟨d1, hrun, hRef1, hs1x, hA1x⟩ :=
      ih c s2 (aStep s.Predict (decide (c &&& (1 <<< k) ≠ 0)) a)
        ((Decoder.Normalize code 4) (d.Decode s.Predict).2) s1 a1 hc hs2 hAS hRefN h1 h2
    refine ⟨d1, ?_, hRef1, hs1x, hA1x⟩
    have hacc : (if decide (c &&& (1 <<< k) ≠ 0)
        then c / 2 ^ (k + 1) * 2 ^ (k + 1) ||| (1 <<< k)
        else c / 2 ^ (k + 1) * 2 ^ (k + 1)) = c / 2 ^ k * 2 ^ k := by
      by_cases hbit : c &&& (1 <<< k) ≠ 0
      · rw [if_pos (decide_eq_true hbit)]
        exact acc_step_true ((and_pow_bit c k).1 hbit)
      · rw [if_neg (by rw [decide_eq_false hbit]; exact Bool.false_ne_true)]
        refine acc_step_false ?_
        have hne : ¬(c / 2 ^ k % 2 = 1) := fun hh => hbit ((and_pow_bit c k).2 hh)
        omega
    have hmach : decodeByte code (k + 1) s d (c / 2 ^ (k + 1) * 2 ^ (k + 1))
        = decodeByte code k s2 (((d.Decode s.Predict).2).Normalize code 4)
            (c / 2 ^ k * 2 ^ k) := by
      rw [decodeByte_succ, hfst, hupd, hacc]
    rw [hmach]
    exact hrun

theorem decodeBytes_run {code : List Nat} {W T : Nat} {sF : PPM} {aF : ACoder}
    (hWL : aF.L = W) (hWT : aF.t = T) (hCM : CodeMatch code W T) :
    ∀ (cs : List Nat) (s : PPM) (a : ACoder) (d : Decoder),
    (∀ c ∈ cs, c < 256) →
    StateInv s → AInv a → RefD code W T d a →
    aRunBytes cs s a = some (sF, aF) →
    ∃ d1, decodeBytes code cs.length s d = some (sF, d1, cs) := by
  intro cs
  induction cs with
  | nil =>
    intro s a d _ hs hA hRef h
    rw [show aRunBytes [] s a = some (s, a) from rfl] at h
    simp only [Option.some.injEq, Prod.mk.injEq] at h
    obtain ⟨rfl, rfl⟩ := h
    exact ⟨d, rfl⟩
  | cons c cs ih =>
    intro s a d hb hs hA hRef h
    rw [aRunBytes_cons] at h
    cases hbyte : aRunByte c 8 s a with
    | none =>
      rw [hbyte] at h
      cases h
    | some r =>
      rw [hbyte] at h
      have hc : c < 256 := hb c (List.mem_cons_self c cs)
      obtain ⟨d1, hrun, hRef1, hs1, hA1⟩ :=
        decodeByte_run hWL hWT hCM 8 c s a d r.1 r.2 hc hs hA hRef (by rw [hbyte]) h
      obtain ⟨d2, hrun2⟩ :=
        ih r.1 r.2 d1 (fun x hx => hb x (List.mem_cons_of_mem c hx)) hs1 hA1 hRef1 h
      refine ⟨d2, ?_⟩
      have hacc0 : c / 2 ^ 8 * 2 ^ 8 = 0 := by omega
      rw [hacc0] at hrun
      show decodeBytes code (cs.length + 1) s d = some (sF, d2, c :: cs)
      rw [decodeBytes_succ]
      simp only [hrun, hrun2]

/-! ## Top-level assembly -/

theorem Compress_eq (m o : Nat) (text : List Nat) :
    Compress m o text =
      match encodeBytes text (PPM.mk0 m o) Encoder.mk0 with
      | none => none
      | some (_, e) => some ([((text.length % 2 ^ 32) >>> 24) % 256,
          ((text.length % 2 ^ 32) >>> 16) % 256, ((text.length % 2 ^ 32) >>> 8) % 256,
          (text.length % 2 ^ 32) % 256] ++ e.FlushBuffer) := rfl

theorem Decompress_eq (m o : Nat) (code : List Nat) :
    Decompress m o code =
      match decodeBytes code
          (((getByte code 0 <<< 24) % 2 ^ 32 + (getByte code 1 <<< 16) % 2 ^ 32
            + (getByte code 2 <<< 8) % 2 ^ 32 + getByte code 3) % 2 ^ 32)
          (PPM.mk0 m o) (Decoder.FillBuffer code (Decoder.mk0 4)) with
      | none => none
      | some (_, _, cs) => some cs := rfl

theorem refE_init : RefE Encoder.mk0 ACoder.mk0 :=
  ⟨rfl, rfl, rfl, by decide, by decide, fun b hb => absurd hb (List.not_mem_nil b),
    by decide, Or.inl (by decide)⟩

theorem aInv_init : AInv ACoder.mk0 := ⟨by decide, by decide⟩

theorem top_digit_zero {W T : Nat} (h : W < 4294967295 * 256 ^ T) :
    W / 256 ^ (T + 4) = 0 := by
  apply Nat.div_eq_of_lt
  have hp : (0 : Nat) < 256 ^ T := Nat.pos_pow_of_pos T (by norm_num)
  have h4 : (256 : Nat) ^ (T + 4) = 256 ^ T * 4294967296 := by
    rw [pow_add]
    norm_num
  rw [h4]
  have h5 : (4294967295 : Nat) * 256 ^ T < 4294967296 * 256 ^ T :=
    (Nat.mul_lt_mul_right hp).2 (by norm_num)
  calc W < 4294967295 * 256 ^ T := h
    _ < 4294967296 * 256 ^ T := h5
    _ = 256 ^ T * 4294967296 := by ring

theorem parse_length {n : Nat} (hn : n < 2 ^ 32) (F : List Nat) :
    ((getByte ([(n >>> 24) % 256, (n >>> 16) % 256, (n >>> 8) % 256, n % 256] ++ F) 0 <<< 24)
        % 2 ^ 32
      + (getByte ([(n >>> 24) % 256, (n >>> 16) % 256, (n >>> 8) % 256, n % 256] ++ F) 1 <<< 16)
        % 2 ^ 32
      + (getByte ([(n >>> 24) % 256, (n >>> 16) % 256, (n >>> 8) % 256, n % 256] ++ F) 2 <<< 8)
        % 2 ^ 32
      + getByte ([(n >>> 24) % 256, (n >>> 16) % 256, (n >>> 8) % 256, n % 256] ++ F) 3)
      % 2 ^ 32 = n := by
  have h0 : getByte ([(n >>> 24) % 256, (n >>> 16) % 256, (n >>> 8) % 256, n % 256] ++ F) 0
      = (n >>> 24) % 256 := by
    unfold getByte
    rw [List.getD_append _ _ _ _ (by simp)]
    rfl
  have h1 : getByte ([(n >>> 24) % 256, (n >>> 16) % 256, (n >>> 8) % 256, n % 256] ++ F) 1
      = (n >>> 16) % 256 := by
    unfold getByte
    rw [List.getD_append _ _ _ _ (by simp)]
    rfl
  have h2 : getByte ([(n >>> 24) % 256, (n >>> 16) % 256, (n >>> 8) % 256, n % 256] ++ F) 2
      = (n >>> 8) % 256 := by
    unfold getByte
    rw [List.getD_append _ _ _ _ (by simp)]
    rfl
  have h3 : getByte ([(n >>> 24) % 256, (n >>> 16) % 256, (n >>> 8) % 256, n % 256] ++ F) 3
      = n % 256 := by
    unfold getByte
    rw [List.getD_append _ _ _ _ (by simp)]
    rfl
  rw [h0, h1, h2, h3, shiftr, shiftr, shiftr, shiftl, shiftl, shiftl]
  omega

/-- C1: for every byte sequence and every configuration with at least 256
nodes of arena capacity, decompressing the output of compressing the
sequence yields exactly the original sequence. -/
theorem C1_round_trip (memoryLimit orderLimit : Nat) (text : List Nat)
    (hbytes : ∀ c ∈ text, c < 256) (hlen : text.length < 2 ^ 32)
    (hcap : 256 ≤ memoryLimit * (1 <<< 20) / 16) :
    ∃ code, Compress memoryLimit orderLimit text = some code ∧
      Decompress memoryLimit orderLimit code = some text := by
  obtain ⟨sF, eF, aF, hENC, hARUN, hsF, hAF, hRefF⟩ :=
    encodeBytes_run text (PPM.mk0 memoryLimit orderLimit) Encoder.mk0 ACoder.mk0
      (stateInv_init memoryLimit orderLimit) aInv_init refE_init
  have hRpos : 0 < eF.range := by
    rw [hRefF.1]
    have := hAF.1
    omega
  obtain ⟨hvF, hlenF, hbF⟩ := flush_spec hRpos hRefF
  obtain ⟨-, hhiR⟩ := aRunBytes_bracket text _ ACoder.mk0 sF aF aF.t
    (stateInv_init memoryLimit orderLimit) aInv_init hARUN (Nat.le_refl _)
  have hmk0L : ACoder.mk0.L = 0 := rfl
  have hmk0R : ACoder.mk0.R = 0xFFFFFFFF := rfl
  have hmk0t : ACoder.mk0.t = 0 := rfl
  rw [hmk0L, hmk0R, hmk0t, Nat.sub_self, Nat.sub_zero, pow_zero, Nat.mul_one, Nat.mul_one,
    Nat.zero_add] at hhiR
  have hWup : aF.L < 4294967295 * 256 ^ aF.t := by
    have h1 := hAF.1
    omega
  have hmod : text.length % 2 ^ 32 = text.length := Nat.mod_eq_of_lt hlen
  have hCompress : Compress memoryLimit orderLimit text
      = some ([(text.length >>> 24) % 256, (text.length >>> 16) % 256,
          (text.length >>> 8) % 256, text.length % 256] ++ eF.FlushBuffer) := by
    rw [Compress_eq]
    simp only [hENC]
    rw [hmod]
  have hCM : CodeMatch ([(text.length >>> 24) % 256, (text.length >>> 16) % 256,
      (text.length >>> 8) % 256, text.length % 256] ++ eF.FlushBuffer) aF.L aF.t :=
    flush_codeMatch _ rfl hlenF hbF hvF
  have hFill := fillBuffer_spec hCM hWup
  have hRefD0 : RefD ([(text.length >>> 24) % 256, (text.length >>> 16) % 256,
      (text.length >>> 8) % 256, text.length % 256] ++ eF.FlushBuffer) aF.L aF.t
      (Decoder.FillBuffer ([(text.length >>> 24) % 256, (text.length >>> 16) % 256,
        (text.length >>> 8) % 256, text.length % 256] ++ eF.FlushBuffer)
        (Decoder.mk0 4)) ACoder.mk0 := by
    rw [hFill]
    exact ⟨rfl, rfl, Nat.zero_le _, rfl⟩
  obtain ⟨dF, hDEC⟩ := decodeBytes_run rfl rfl hCM text (PPM.mk0 memoryLimit orderLimit)
    ACoder.mk0 _ hbytes (stateInv_init memoryLimit orderLimit) aInv_init hRefD0 hARUN
  refine ⟨_, hCompress, ?_⟩
  rw [Decompress_eq]
  rw [parse_length hlen eF.FlushBuffer]
  simp only [hDEC]

theorem C1_witness :
    ∃ code, Compress 128 4 [42] = some code ∧ Decompress 128 4 code = some [42] :=
  C1_round_trip 128 4 [42] (by decide) (by decide) (by decide)

/-- C2: byte 4 of any compressed output, the first byte the range coder
emits after the length prefix, is always zero. -/
theorem C2_leading_zero (memoryLimit orderLimit : Nat) (text out : List Nat)
    (h : Compress memoryLimit orderLimit text = some out) : getByte out 4 = 0 := by
  obtain ⟨sF, eF, aF, hENC, hARUN, hsF, hAF, hRefF⟩ :=
    encodeBytes_run text (PPM.mk0 memoryLimit orderLimit) Encoder.mk0 ACoder.mk0
      (stateInv_init memoryLimit orderLimit) aInv_init refE_init
  have hRpos : 0 < eF.range := by
    rw [hRefF.1]
    have := hAF.1
    omega
  obtain ⟨hvF, hlenF, hbF⟩ := flush_spec hRpos hRefF
  obtain ⟨-, hhiR⟩ := aRunBytes_bracket text _ ACoder.mk0 sF aF aF.t
    (stateInv_init memoryLimit orderLimit) aInv_init hARUN (Nat.le_refl _)
  have hmk0L : ACoder.mk0.L = 0 := rfl
  have hmk0R : ACoder.mk0.R = 0xFFFFFFFF := rfl
  have hmk0t : ACoder.mk0.t = 0 := rfl
  rw [hmk0L, hmk0R, hmk0t, Nat.sub_self, Nat.sub_zero, pow_zero, Nat.mul_one, Nat.mul_one,
    Nat.zero_add] at hhiR
  have hWup : aF.L < 4294967295 * 256 ^ aF.t := by
    have h1 := hAF.1
    omega
  have hCompress : Compress memoryLimit orderLimit text
      = some ([((text.length % 2 ^ 32) >>> 24) % 256, ((text.length % 2 ^ 32) >>> 16) % 256,
          ((text.length % 2 ^ 32) >>> 8) % 256, (text.length % 2 ^ 32) % 256]
          ++ eF.FlushBuffer) := by
    rw [Compress_eq]
    simp only [hENC]
  have hCM : CodeMatch ([((text.length % 2 ^ 32) >>> 24) % 256,
      ((text.length % 2 ^ 32) >>> 16) % 256, ((text.length % 2 ^ 32) >>> 8) % 256,
      (text.length % 2 ^ 32) % 256] ++ eF.FlushBuffer) aF.L aF.t :=
    flush_codeMatch _ rfl hlenF hbF hvF
  have h4 : getByte ([((text.length % 2 ^ 32) >>> 24) % 256,
      ((text.length % 2 ^ 32) >>> 16) % 256, ((text.length % 2 ^ 32) >>> 8) % 256,
      (text.length % 2 ^ 32) % 256] ++ eF.FlushBuffer) 4
      = aF.L / 256 ^ (aF.t + 4) % 256 := hCM 0 (by omega)
  rw [top_digit_zero hWup, Nat.zero_mod] at h4
  rw [hCompress] at h
  injection h with h
  rw [← h]
  exact h4

theorem C2_witness : getByte (List.replicate 9 0) 4 = 0 :=
  C2_leading_zero 128 4 [] (List.replicate 9 0) rfl

/-- C3 (counterexample): the compressed form of the empty input is nine
zero bytes, not eight — FlushBuffer emits five bytes, not four. -/
theorem C3_counterexample :
    Compress 128 4 [] = some (List.replicate 9 0) ∧
    (List.replicate 9 (0 : Nat)).length ≠ 8 := by
  constructor
  · rfl
  · decide

/-- C3 (amended): for the empty input, under any configuration, the
compressed output is exactly nine bytes, all zero: a four-byte zero length
prefix plus the five bytes flushed from an untouched encoder. -/
theorem C3_empty_input (memoryLimit orderLimit : Nat) :
    Compress memoryLimit orderLimit [] = some (List.replicate 9 0) := rfl

end Crook
